import Mathlib

/-!
Shallow embedding of the exparser repository (src/Rational.py, src/Expression.py) and
verification of the specification claims about it.

Conventions of the embedding:
* Python integers are `Int` (arbitrary precision, as in Python).
* Python exceptions are modeled with `Except Err`; distinct `Err` constructors stand for the
  distinct raise sites/messages of the source (all of which are Python `ValueError`,
  `ZeroDivisionError`, `IndexError`, `AttributeError` or bare `Exception`).
* The two unbounded loops of the source (the parser scan, which jumps forward past
  parenthesised groups, and the consolidation while-loop, which restarts its index) are given
  an explicit fuel parameter so that every definition is executable by kernel reduction;
  `.error .fuelOut` marks fuel exhaustion, which never occurs for sufficient fuel
  (proved where a claim needs it).
* Floating point arithmetic appears in the source in two places.  `Rational.simplify` runs
  `int(self.numer / x)` — float true division then truncation — which is modeled exactly by
  `pyIntDivFloat`/`roundIntDouble` in the only case the code reaches (the divisor is the gcd
  of the fields, so it divides): the integer quotient is rounded to the nearest IEEE-754
  double (round half to even, 53 significant bits, `OverflowError` at 2^1024), which is the
  identity up to 2^53 and lossy beyond.  The EXPONENT branch of `op`
  (`Rational(a.as_float() ** b.as_float())`) is modeled only on inputs where the double
  computation is exact (see `reprDouble`, `floatPowVal`); everything outside that regime is
  out of the embedding's scope and mapped to `.error .floatUnmodeled` / `Option.none`.
-/

/-- Error outcomes of the embedded code.  Each constructor corresponds to one raise site of the
source (or to an artefact of the embedding: `fuelOut`, `floatUnmodeled`). -/
inductive Err where
  /-- `ZeroDivisionError` (`Rational.__init__`, `Rational.scale`, `Rational.reciprocal`,
  float division by zero in `Rational.simplify`). -/
  | divideByZero
  /-- `Exception("Can't calculate an invalid expression!")` in `Expression.calculate`. -/
  | invalidExpression
  /-- `Exception("Something really went wrong!")` in `Expression.calculate`. -/
  | internalError
  /-- Python `IndexError` from an out-of-range list subscript. -/
  | indexError
  /-- Python `AttributeError` from calling `.calculate()` on `None`. -/
  | attributeError
  /-- `ValueError("Invalid operation!")` in `op`. -/
  | valueError
  /-- `ValueError("Couldn't find a matching parens!")` in `find_matching_parens`. -/
  | unmatchedParens
  /-- `ValueError("Couldn't parse an invalid Expression!")` in `Expression.parse`. -/
  | invalidChar
  /-- `ValueError("Couldn't parse as a Rational!")` in `Rational.parse`. -/
  | badLiteral
  /-- Python `OverflowError`: integer division result too large for a float
  (raised by `int.__truediv__` inside `Rational.simplify` for quotients beyond the
  IEEE-754 double range). -/
  | overflowError
  /-- Embedding artefact: float computation outside the exactly-representable regime. -/
  | floatUnmodeled
  /-- Embedding artefact: fuel exhausted. -/
  | fuelOut
  deriving DecidableEq

/-- The operator enumeration (`class Operation`, src/Expression.py). -/
inductive Operation where
  | ADD
  | SUBTRACT
  | MULTIPLY
  | DIVIDE
  | EXPONENT
  deriving DecidableEq

/-- The `Rational` data of src/Rational.py: a numerator and a denominator field.
(The EXPONENT branch of `op` can store a non-integral float in `numer` in Python; that
branch is modeled separately, see `expNumer`.) -/
structure Rational where
  numer : Int
  denom : Int
  deriving DecidableEq

/-- The exact rational value denoted by a `Rational` (0 when the denominator is 0, which
cannot be produced by the constructor). -/
def Rational.val (r : Rational) : ℚ := (r.numer : ℚ) / (r.denom : ℚ)

/-- Bit length of a natural number, with an explicit fuel argument (`bits n n` is the exact
bit length: the recursion halves its argument, so `n` steps of fuel always suffice). -/
def bits : Nat → Nat → Nat
  | 0, _ => 0
  | fuel + 1, n => if n = 0 then 0 else bits fuel (n / 2) + 1

/-- IEEE-754 rounding of the mantissa: quotient `q` with remainder `r` against the halfway
value `half`, round half to even. -/
def roundHalfEven (q r half : Nat) : Nat :=
  if half < r then q + 1
  else if r < half then q
  else if q % 2 = 1 then q + 1 else q

/-- The integer value of the IEEE-754 double nearest to the integer `m` (round half to
even): exactly `m` when `|m| ≤ 2^53`; otherwise `m` rounded to 53 significant bits; `none`
when the rounded value reaches `2^1024` and the double overflows (Python `OverflowError`). -/
def roundIntDouble (m : Int) : Option Int :=
  if m.natAbs ≤ 2 ^ 53 then some m
  else
    let e : Nat := bits m.natAbs m.natAbs - 53
    let v : Nat := roundHalfEven (m.natAbs / 2 ^ e) (m.natAbs % 2 ^ e) (2 ^ (e - 1)) * 2 ^ e
    if 2 ^ 1024 ≤ v then none
    else if m < 0 then some (-(v : Int)) else some ((v : Int))

/-- Models Python `int(a / x)` — float true division followed by truncation — in the case
`x ∣ a`, the only case this code base reaches (`Rational.simplify` divides both fields by
their gcd): the true quotient is then the integer `a / x`, CPython's correctly rounded int
division returns the double nearest to it (an integral double), and `int` maps that double
back to its integer value, `roundIntDouble (a / x)`.  Division by zero raises
`ZeroDivisionError`; a quotient beyond the double range raises `OverflowError`.  A
non-divisible pair is unreachable from this code and is left unmodeled. -/
def pyIntDivFloat (a x : Int) : Except Err Int :=
  if x = 0 then .error .divideByZero
  else if a % x = 0 then
    match roundIntDouble (a / x) with
    | some m => .ok m
    | none => .error .overflowError
  else .error .floatUnmodeled

/-- Models `Rational.simplify` (src/Rational.py lines 60-66): compute
`x = gcd(numer, denom)` (Python `math.gcd`, the gcd of the absolute values, hence
nonnegative), then `self.numer = int(self.numer / x)` followed by
`self.denom = int(self.denom / x)` — float true division then truncation, modeled by
`pyIntDivFloat`.  For quotients of magnitude at most 2^53 this is the exact division;
beyond 2^53 the float rounding changes the value (see the C6 and C8 counterexamples).
When both fields are 0 the float division raises `ZeroDivisionError` (such an instance
cannot be constructed). -/
def Rational.simplify (r : Rational) : Except Err Rational :=
  if (Int.gcd r.numer r.denom : Int) = 0 then .error .divideByZero
  else do
    let n ← pyIntDivFloat r.numer (Int.gcd r.numer r.denom : Int)
    let d ← pyIntDivFloat r.denom (Int.gcd r.numer r.denom : Int)
    .ok ⟨n, d⟩

/-- Models `Rational.__init__(numer, denom, simplify)` (src/Rational.py lines 38-46): raise
`ZeroDivisionError` on a zero denominator, then simplify in place when `denom != 1` and the
`simplify` flag is set. -/
def Rational.make (numer denom : Int) (simplifyFlag : Bool) : Except Err Rational :=
  if denom = 0 then .error .divideByZero
  else if denom ≠ 1 ∧ simplifyFlag = true then Rational.simplify ⟨numer, denom⟩
  else .ok ⟨numer, denom⟩

/-- Models `Rational.scale(x)` (in-place multiplication of both fields by `x`); the updated
instance is returned explicitly. -/
def Rational.scale (r : Rational) (x : Int) : Except Err Rational :=
  if x = 0 then .error .divideByZero
  else .ok ⟨r.numer * x, r.denom * x⟩

/-- Models `Rational.reciprocal` (src/Rational.py lines 77-84): the guard tests `x.denom == 0`
(not the numerator), then builds `Rational(x.denom, x.numer, False)`; a zero numerator therefore
raises `ZeroDivisionError` inside the constructor. -/
def Rational.reciprocal (x : Rational) : Except Err Rational :=
  if x.denom = 0 then .error .divideByZero
  else Rational.make x.denom x.numer false

/-- Models `Rational.match_denominators` (src/Rational.py lines 86-92): when the denominators
differ, scale each operand in place by the other's denominator; return the resulting common
denominator together with the updated operands. -/
def Rational.match_denominators (a b : Rational) :
    Except Err (Int × Rational × Rational) :=
  if a.denom ≠ b.denom then do
    let aDenom := a.denom
    let a2 ← a.scale b.denom
    let b2 ← b.scale aDenom
    .ok (a2.denom, a2, b2)
  else .ok (a.denom, a, b)

/-- Models `Rational.multiply`. -/
def Rational.multiply (a b : Rational) (simplifyFlag : Bool) : Except Err Rational :=
  Rational.make (a.numer * b.numer) (a.denom * b.denom) simplifyFlag

/-- Models `Rational.divide`: multiply by the reciprocal. -/
def Rational.divide (a b : Rational) (simplifyFlag : Bool) : Except Err Rational := do
  Rational.multiply a (← Rational.reciprocal b) simplifyFlag

/-- Models `Rational.add` (src/Rational.py lines 102-111).  The operands are mutated
(scaled to a common denominator, then simplified) as a side effect, so the result triple is
(returned value, `a` after the call, `b` after the call). -/
def Rational.add (a b : Rational) (simplifyFlag : Bool) :
    Except Err (Rational × Rational × Rational) := do
  let (denom, a1, b1) ← Rational.match_denominators a b
  let result ← Rational.make (a1.numer + b1.numer) denom simplifyFlag
  let a2 ← a1.simplify
  let b2 ← b1.simplify
  .ok (result, a2, b2)

/-- Models `Rational.subtract` (src/Rational.py lines 113-122), analogous to `add`. -/
def Rational.subtract (a b : Rational) (simplifyFlag : Bool) :
    Except Err (Rational × Rational × Rational) := do
  let (denom, a1, b1) ← Rational.match_denominators a b
  let result ← Rational.make (a1.numer - b1.numer) denom simplifyFlag
  let a2 ← a1.simplify
  let b2 ← b1.simplify
  .ok (result, a2, b2)

/-- Models `is_digit` (src/Rational.py) on the ASCII inputs the parser feeds it. -/
def is_digit (c : Char) : Bool := c.isDigit

/-- Value of a string of ASCII digits. -/
def digitsVal (l : List Char) : Nat :=
  l.foldl (fun acc c => 10 * acc + (c.toNat - '0'.toNat)) 0

/-- Models `decimal.Decimal(s).as_integer_ratio()` on the plain digit-and-dot literals the
code supplies: a string of ASCII digits with at most one decimal point and at least one digit
denotes an exact fraction in lowest terms; anything else raises `InvalidOperation`, which
`Rational.parse` turns into `ValueError` (here `.badLiteral`). -/
def decimalAsPair (s : List Char) : Except Err (Int × Int) :=
  if (s.all fun c => is_digit c || c == '.') &&
      (s.filter fun c => c == '.').length ≤ 1 && 1 ≤ (s.filter is_digit).length then
    let ip := s.takeWhile fun c => !(c == '.')
    let fp := (s.dropWhile fun c => !(c == '.')).drop 1
    let n : Nat := digitsVal (ip ++ fp)
    let d : Nat := 10 ^ fp.length
    let g := Nat.gcd n d
    .ok ((n / g : Nat), (d / g : Nat))
  else .error .badLiteral

/-- Models `Rational.parse` (src/Rational.py lines 52-58). -/
def Rational.parse (s : List Char) : Except Err Rational := do
  let (n, d) ← decimalAsPair s
  Rational.make n d true

/-- A sufficient criterion for a fraction in lowest terms (numerator, positive denominator)
to be exactly representable as an IEEE-754 double: numerator within the 53-bit mantissa,
denominator a power of two within exponent range. -/
def reprDouble (n : Int) (d : Nat) : Bool :=
  decide (d ∣ 2 ^ 52) && decide (n.natAbs ≤ 2 ^ 53)

/-- Models `Rational.as_float` (`float(numer / denom)`) where the true quotient is exactly
representable as a double (IEEE division is correctly rounded, hence exact there), returning
that value as a fraction in lowest terms with positive denominator; `none` outside that
regime (and on the unconstructible zero denominator, where Python raises). -/
def asFloatVal (r : Rational) : Option (Int × Nat) :=
  if r.denom = 0 then none
  else
    let n : Int := if r.denom < 0 then -r.numer else r.numer
    let d : Nat := r.denom.natAbs
    let g : Nat := Nat.gcd n.natAbs d
    let n2 : Int := n / (g : Int)
    let d2 : Nat := d / g
    if reprDouble n2 d2 then some (n2, d2) else none

/-- Models the Python float power `x ** y` (operands and result as lowest-term fractions) on
arguments where the double computation is exact: `pow(x, 1.0) = x`, and integer `x` raised to
a nonnegative integer `y` whose exact result fits in the 53-bit mantissa (CPython delegates
to a correctly rounded `pow`). -/
def floatPowVal (x y : Int × Nat) : Option (Int × Nat) :=
  if y = (1, 1) then some x
  else if x.2 = 1 && y.2 = 1 && decide (0 ≤ y.1) &&
      decide (x.1.natAbs ^ y.1.toNat ≤ 2 ^ 53) then
    some (x.1 ^ y.1.toNat, 1)
  else none

/-- The float value stored into the `numer` field by the EXPONENT branch
`Rational(a.as_float() ** b.as_float())` of `op` (src/Expression.py line 32), as an exact
fraction in lowest terms, on inputs where the double computation is exact.  Note this value
need not be an integer: the constructor is called with `denom = 1`, so no simplification runs
and the float is kept as the numerator. -/
def expNumer (a b : Rational) : Option (Int × Nat) := do
  let x ← asFloatVal a
  let y ← asFloatVal b
  floatPowVal x y

/-- Models `op(a, b, operation)` (src/Expression.py lines 21-33).  The in-place operand
mutations of `add`/`subtract` affect only temporaries of `calculate` here, so only the
returned value is kept.  The EXPONENT branch wraps the float result as `Rational(float, 1)`;
it is modeled only where that float is an exact integer (the `Int`-valued `numer` field of
the embedding cannot hold the non-integral float Python would store; see `expNumer`).
Passing `None` (the `.operation` attribute of a value token) falls through every branch and
raises `ValueError("Invalid operation!")`. -/
def op (a b : Rational) (operation : Option Operation) : Except Err Rational :=
  match operation with
  | some .ADD => (Rational.add a b true).map fun x => x.1
  | some .SUBTRACT => (Rational.subtract a b true).map fun x => x.1
  | some .MULTIPLY => Rational.multiply a b true
  | some .DIVIDE => Rational.divide a b true
  | some .EXPONENT =>
    match expNumer a b with
    | some q => if q.2 = 1 then .ok ⟨q.1, 1⟩ else .error .floatUnmodeled
    | none => .error .floatUnmodeled
  | none => .error .valueError

/-- A `Token` (src/Expression.py): either an operator, or a value holding a `Rational`, or a
value holding a nested `Expression` (represented by its token list). -/
inductive Token where
  | op (o : Operation) : Token
  | rat (r : Rational) : Token
  | expr (tokens : List Token) : Token

/-- Models `Token.is_value` (`self.value is not None`). -/
def Token.is_value : Token → Bool
  | .op _ => false
  | _ => true

/-- The `.operation` attribute of a token (`None` on value tokens). -/
def Token.operation : Token → Option Operation
  | .op o => some o
  | _ => none

/-- Models `tokens[i].is_operation() and tokens[i].operation in operations`. -/
def Token.opIn (t : Token) (operations : List Operation) : Bool :=
  match t with
  | .op o => operations.contains o
  | _ => false

/-- The loop of `Expression.is_valid`: `on_value` starts `True` and flips at each token;
a token whose `is_value()` disagrees with the flag makes the whole check `False`. -/
def Expression.is_validAux : Bool → List Token → Bool
  | _, [] => true
  | onValue, t :: rest =>
    if t.is_value != onValue then false else Expression.is_validAux (!onValue) rest

/-- Models `Expression.is_valid` (src/Expression.py lines 180-186). -/
def Expression.is_valid (tokens : List Token) : Bool :=
  Expression.is_validAux true tokens

/-- The alternation invariant exactly as the specification words it (for comparison with the
code's `is_valid`): the tokens strictly alternate value, operator, value, …, starting and
ending on a value token; the empty sequence does not satisfy it. -/
def specAlternates : List Token → Bool
  | [] => false
  | [t] => t.is_value
  | t :: o :: rest => t.is_value && !o.is_value && specAlternates rest

/-- Models `find_matching_parens(s, i)` (src/Expression.py lines 7-18), operating on the
characters after the opening parenthesis: returns the characters strictly between the
parentheses and the characters after the matching `)`, or `none` when no match exists before
the end of the string (`ValueError`). -/
def findClose : List Char → Nat → Option (List Char × List Char)
  | [], _ => none
  | c :: rest, level =>
    if c = '(' then (findClose rest (level + 1)).map fun p => (c :: p.1, p.2)
    else if c = ')' then
      if level = 0 then some ([], rest)
      else (findClose rest (level - 1)).map fun p => (c :: p.1, p.2)
    else (findClose rest level).map fun p => (c :: p.1, p.2)

/-- Models `s.replace(" ", "")`. -/
def removeSpaces (s : List Char) : List Char := s.filter fun c => !(c == ' ')

/-- Models `Operation.parse` (returns `None` on any other character). -/
def Operation.parse (x : Char) : Option Operation :=
  if x = '+' then some .ADD
  else if x = '-' then some .SUBTRACT
  else if x = '*' then some .MULTIPLY
  else if x = '/' then some .DIVIDE
  else if x = '^' then some .EXPONENT
  else none

/-- Whether the last emitted token exists and is a value
(`len(ex.tokens) > 0 and ex.tokens[-1].is_value()`). -/
def lastIsValue (toks : List Token) : Bool :=
  match toks.getLast? with
  | some t => t.is_value
  | none => false

/-- Flushing the in-progress literal buffer (src/Expression.py lines 149-153 and 171-173):
a nonempty buffer is parsed as a Rational and emitted as a value token. -/
def flushBuf (toks : List Token) (buf : List Char) : Except Err (List Token) :=
  if buf.isEmpty then .ok toks
  else do
    let x ← Rational.parse buf
    .ok (toks ++ [Token.rat x])

/-- The scan loop of `Expression.parse` (src/Expression.py lines 131-175), fueled.  Arguments:
remaining characters, tokens emitted so far, and the in-progress literal buffer
(`working_digit`; `building_digit` is equivalent to the buffer being nonempty).  A digit or
dot extends the buffer; any other character first flushes a nonempty buffer through
`Rational.parse`; an operator character emits an operator token; `(` first synthesizes an
implicit MULTIPLY when the previous emitted token is a value, then finds the matching `)`,
recursively parses the characters strictly between the parentheses, emits the nested
expression as a value token and resumes after the `)`; any other character raises
`ValueError`.  At end of input a nonempty buffer is flushed. -/
def parseLoopF : Nat → List Char → List Token → List Char → Except Err (List Token)
  | 0, _, _, _ => .error .fuelOut
  | _ + 1, [], toks, buf => flushBuf toks buf
  | fuel + 1, c :: rest, toks, buf =>
    if is_digit c || c == '.' then
      parseLoopF fuel rest toks (buf ++ [c])
    else do
      let toks2 ← flushBuf toks buf
      match Operation.parse c with
      | some o => parseLoopF fuel rest (toks2 ++ [Token.op o]) []
      | none =>
        if c = '(' then
          let toks3 := if lastIsValue toks2 then toks2 ++ [Token.op .MULTIPLY] else toks2
          match findClose rest 0 with
          | none => .error .unmatchedParens
          | some (content, after) => do
            let sub ← parseLoopF fuel (removeSpaces content) [] []
            parseLoopF fuel after (toks3 ++ [Token.expr sub]) []
        else .error .invalidChar

/-- Models `Expression.parse(s)`: strip spaces, then scan. -/
def Expression.parse (fuel : Nat) (s : List Char) : Except Err (List Token) :=
  parseLoopF fuel (removeSpaces s) [] []

/-- Python list subscript `l[i]` with negative-index wraparound; out of range raises
`IndexError`. -/
def pyGet (l : List Token) (i : Int) : Except Err Token :=
  let j : Int := if i < 0 then (l.length : Int) + i else i
  if 0 ≤ j then
    match l[j.toNat]? with
    | some t => .ok t
    | none => .error .indexError
  else .error .indexError

/-- Python slice `l[:j]` (never raises; negative `j` counts from the end and clamps at 0). -/
def pySliceTo (l : List Token) (j : Int) : List Token :=
  l.take (if j < 0 then ((l.length : Int) + j).toNat else j.toNat)

/-- One replacement step of `Expression.consolidate` at scan index `i`: build
`Expression(tokens[i-1], tokens[i], tokens[i+1])` and splice
`tokens[:i-1] + [value-token wrapping it] + tokens[i+2:]` (Python index/slice semantics,
including the negative indexing that occurs when `i = 0`). -/
def consolidateStep (tokens : List Token) (i : Nat) : Except Err (List Token) := do
  let a ← pyGet tokens ((i : Int) - 1)
  let t ← pyGet tokens i
  let c ← pyGet tokens ((i : Int) + 1)
  .ok (pySliceTo tokens ((i : Int) - 1) ++ [Token.expr [a, t, c]] ++ tokens.drop (i + 2))

/-- The while-loop of `Expression.consolidate` (src/Expression.py lines 214-224), fueled:
while `i < len(tokens) and len(tokens) >= 4`, on finding at `i` an operator token whose
operation is in `operations`, replace the triple around it and restart (`i = 0` followed by
`i += 1`, so the rescan begins at index 1); otherwise advance `i`. -/
def consolidateLoop : Nat → List Operation → List Token → Nat → Except Err (List Token)
  | 0, _, _, _ => .error .fuelOut
  | fuel + 1, operations, tokens, i =>
    if i < tokens.length ∧ 4 ≤ tokens.length then
      match tokens[i]? with
      | some t =>
        if t.opIn operations then do
          let tokens2 ← consolidateStep tokens i
          consolidateLoop fuel operations tokens2 1
        else consolidateLoop fuel operations tokens (i + 1)
      | none => .error .indexError
    else .ok tokens

/-- Fuel sufficient for one consolidation pass on a valid expression (proved below as part of
the termination claim). -/
def tierFuel (tokens : List Token) : Nat :=
  tokens.length * tokens.length + tokens.length + 2

/-- Models `Expression.consolidate(operations)`. -/
def Expression.consolidate (operations : List Operation) (tokens : List Token) :
    Except Err (List Token) :=
  consolidateLoop (tierFuel tokens) operations tokens 0

/-- Models `Expression.pemdas`: one consolidation pass per precedence tier, EXPONENT first,
then MULTIPLY/DIVIDE, then ADD/SUBTRACT. -/
def Expression.pemdas (tokens : List Token) : Except Err (List Token) := do
  let t1 ← Expression.consolidate [Operation.EXPONENT] tokens
  let t2 ← Expression.consolidate [Operation.MULTIPLY, Operation.DIVIDE] t1
  Expression.consolidate [Operation.ADD, Operation.SUBTRACT] t2

/-- Models `Expression.calculate` (src/Expression.py lines 188-207), fueled on the recursion
into nested expressions.  Raise if `is_valid` fails; a single token is calculated directly
(`tokens[0].value.calculate()`: a `Rational` returns itself, a nested expression recurses, an
operator token's `value` is `None` and raises `AttributeError`); otherwise run `pemdas`,
re-check `is_valid`, then evaluate `tokens[0]`, `tokens[2]` and dispatch on
`tokens[1].operation` — in that order, so a too-short token list raises `IndexError` at the
first missing subscript, exactly as in Python. -/
def Expression.calculate : Nat → List Token → Except Err Rational
  | 0, _ => .error .fuelOut
  | fuel + 1, tokens =>
    if Expression.is_valid tokens = false then .error .invalidExpression
    else if tokens.length = 1 then
      match tokens with
      | [Token.rat r] => .ok r
      | [Token.expr ts] => Expression.calculate fuel ts
      | _ => .error .attributeError
    else do
      let tokens2 ← Expression.pemdas tokens
      if Expression.is_valid tokens2 = false then .error .internalError
      else do
        let t0 ← pyGet tokens2 0
        let a ← match t0 with
          | Token.rat r => .ok r
          | Token.expr ts => Expression.calculate fuel ts
          | Token.op _ => .error .attributeError
        let t2 ← pyGet tokens2 2
        let b ← match t2 with
          | Token.rat r => .ok r
          | Token.expr ts => Expression.calculate fuel ts
          | Token.op _ => .error .attributeError
        let t1 ← pyGet tokens2 1
        op a b t1.operation

/-- Parse-then-calculate, the pipeline of `app.main`. -/
def evalStr (fuel : Nat) (s : List Char) : Except Err Rational := do
  let ts ← Expression.parse fuel s
  Expression.calculate fuel ts

/-! ### Helper lemmas: the Rational layer -/

theorem Rational.gcd_ne_zero {r : Rational} (hd : r.denom ≠ 0) :
    Int.gcd r.numer r.denom ≠ 0 :=
  fun h => hd (Int.gcd_eq_zero_iff.mp h).2

theorem bits_zero (fuel : Nat) : bits fuel 0 = 0 := by
  cases fuel <;> rfl

theorem bits_spec : ∀ (fuel n : Nat), n ≠ 0 → n < 2 ^ fuel →
    2 ^ (bits fuel n - 1) ≤ n ∧ n < 2 ^ bits fuel n := by
  intro fuel
  induction fuel with
  | zero =>
    intro n hn h
    exact absurd (by omega : n = 0) hn
  | succ fuel ih =>
    intro n hn h
    rw [bits, if_neg hn]
    by_cases h2 : n / 2 = 0
    · have hn1 : n = 1 := by omega
      subst hn1
      rw [h2, bits_zero]
      norm_num
    · have hhalf : n / 2 < 2 ^ fuel := by
        rw [pow_succ] at h
        omega
      obtain ⟨ih1, ih2⟩ := ih (n / 2) h2 hhalf
      constructor
      · rw [Nat.add_sub_cancel]
        cases hbz : bits fuel (n / 2) with
        | zero =>
          rw [pow_zero]
          omega
        | succ b2 =>
          rw [hbz, Nat.add_sub_cancel] at ih1
          rw [pow_succ]
          omega
      · rw [pow_succ]
        omega

theorem roundHalfEven_ge (q r half : Nat) : q ≤ roundHalfEven q r half := by
  rw [roundHalfEven]
  split
  · omega
  · split
    · omega
    · split <;> omega

theorem roundIntDouble_small {m : Int} (h : m.natAbs ≤ 2 ^ 53) :
    roundIntDouble m = some m := by
  rw [roundIntDouble, if_pos h]

theorem roundIntDouble_ne_zero {m v : Int} (h : roundIntDouble m = some v) (hm : m ≠ 0) :
    v ≠ 0 := by
  rw [roundIntDouble] at h
  by_cases hs : m.natAbs ≤ 2 ^ 53
  · rw [if_pos hs] at h
    injection h with h2
    rw [← h2]
    exact hm
  · rw [if_neg hs] at h
    dsimp only at h
    set E : Nat := bits m.natAbs m.natAbs - 53 with hE
    set V : Nat :=
      roundHalfEven (m.natAbs / 2 ^ E) (m.natAbs % 2 ^ E) (2 ^ (E - 1)) * 2 ^ E with hV
    have hnz : m.natAbs ≠ 0 := fun h0 => hm (Int.natAbs_eq_zero.mp h0)
    have hVpos : 1 ≤ V := by
      have hpow : 2 ^ E ≤ m.natAbs := by
        by_cases hE0 : E = 0
        · rw [hE0, pow_zero]
          omega
        · obtain ⟨hb1, _⟩ := bits_spec m.natAbs m.natAbs hnz (Nat.lt_two_pow _)
          have hle : E ≤ bits m.natAbs m.natAbs - 1 := by omega
          exact le_trans (Nat.pow_le_pow_right (by norm_num) hle) hb1
      have hq : 1 ≤ m.natAbs / 2 ^ E := Nat.div_pos hpow (Nat.pos_pow_of_pos _ (by norm_num))
      have hrq := roundHalfEven_ge (m.natAbs / 2 ^ E) (m.natAbs % 2 ^ E) (2 ^ (E - 1))
      rw [hV]
      have h2E : 1 ≤ 2 ^ E := Nat.one_le_two_pow
      calc 1 = 1 * 1 := by norm_num
      _ ≤ roundHalfEven (m.natAbs / 2 ^ E) (m.natAbs % 2 ^ E) (2 ^ (E - 1)) * 2 ^ E :=
          Nat.mul_le_mul (by omega) h2E
    by_cases hov : 2 ^ 1024 ≤ V
    · rw [if_pos hov] at h
      cases h
    · rw [if_neg hov] at h
      have hVz : ((V : Int)) ≠ 0 := by
        have : (1 : Int) ≤ (V : Int) := by exact_mod_cast hVpos
        omega
      by_cases hneg : m < 0
      · rw [if_pos hneg] at h
        injection h with h2
        rw [← h2]
        omega
      · rw [if_neg hneg] at h
        injection h with h2
        rw [← h2]
        exact hVz

theorem pyIntDivFloat_exact {a x : Int} (hx : x ≠ 0) (hdvd : x ∣ a)
    (hb : (a / x).natAbs ≤ 2 ^ 53) : pyIntDivFloat a x = .ok (a / x) := by
  rw [pyIntDivFloat, if_neg hx, if_pos (Int.emod_eq_zero_of_dvd hdvd),
    roundIntDouble_small hb]

theorem pyIntDivFloat_ok {a x m : Int} (h : pyIntDivFloat a x = .ok m) :
    x ≠ 0 ∧ x ∣ a ∧ roundIntDouble (a / x) = some m := by
  by_cases hx : x = 0
  · rw [pyIntDivFloat, if_pos hx] at h
    cases h
  · by_cases hdvd : a % x = 0
    · rw [pyIntDivFloat, if_neg hx, if_pos hdvd] at h
      cases hr : roundIntDouble (a / x) with
      | none =>
        rw [hr] at h
        cases h
      | some m2 =>
        rw [hr] at h
        injection h with h2
        exact ⟨hx, Int.dvd_of_emod_eq_zero hdvd, by rw [h2]⟩
    · rw [pyIntDivFloat, if_neg hx, if_neg hdvd] at h
      cases h

theorem natAbs_ediv_le_natAbs {a g : Int} (hdvd : g ∣ a) (hg : g ≠ 0) :
    (a / g).natAbs ≤ a.natAbs := by
  obtain ⟨k, rfl⟩ := hdvd
  rw [Int.mul_ediv_cancel_left k hg, Int.natAbs_mul]
  exact Nat.le_mul_of_pos_left k.natAbs (Int.natAbs_pos.mpr hg)

theorem exceptBindOk {ε α β : Type} (x : α) (f : α → Except ε β) :
    (Except.ok x >>= f : Except ε β) = f x := rfl

theorem Rational.simplify_ok {r : Rational} (hd : r.denom ≠ 0)
    (hn53 : r.numer.natAbs ≤ 2 ^ 53) (hd53 : r.denom.natAbs ≤ 2 ^ 53) :
    ∃ r2, r.simplify = .ok r2 ∧ r2.val = r.val ∧ Int.gcd r2.numer r2.denom = 1 ∧
      r2.denom ≠ 0 ∧ (r2.denom < 0 ↔ r.denom < 0) := by
  have hg : Int.gcd r.numer r.denom ≠ 0 := Rational.gcd_ne_zero hd
  have hgz : ((Int.gcd r.numer r.denom : Int)) ≠ 0 := by exact_mod_cast hg
  have hgpos : (0 : Int) < (Int.gcd r.numer r.denom : Int) := by
    exact_mod_cast Nat.pos_of_ne_zero hg
  have hq1 : pyIntDivFloat r.numer (Int.gcd r.numer r.denom : Int) =
      .ok (r.numer / (Int.gcd r.numer r.denom : Int)) :=
    pyIntDivFloat_exact hgz Int.gcd_dvd_left
      (le_trans (natAbs_ediv_le_natAbs Int.gcd_dvd_left hgz) hn53)
  have hq2 : pyIntDivFloat r.denom (Int.gcd r.numer r.denom : Int) =
      .ok (r.denom / (Int.gcd r.numer r.denom : Int)) :=
    pyIntDivFloat_exact hgz Int.gcd_dvd_right
      (le_trans (natAbs_ediv_le_natAbs Int.gcd_dvd_right hgz) hd53)
  have hgcd1 : Int.gcd (r.numer / (Int.gcd r.numer r.denom : Int))
      (r.denom / (Int.gcd r.numer r.denom : Int)) = 1 :=
    Int.gcd_div_gcd_div_gcd (Nat.pos_of_ne_zero hg)
  have hn : r.numer / (Int.gcd r.numer r.denom : Int) * (Int.gcd r.numer r.denom : Int) =
      r.numer := Int.ediv_mul_cancel Int.gcd_dvd_left
  have hdd : r.denom / (Int.gcd r.numer r.denom : Int) * (Int.gcd r.numer r.denom : Int) =
      r.denom := Int.ediv_mul_cancel Int.gcd_dvd_right
  set u : Int := r.numer / (Int.gcd r.numer r.denom : Int) with hu
  set v : Int := r.denom / (Int.gcd r.numer r.denom : Int) with hv
  have hvz : v ≠ 0 := by
    intro h0
    rw [h0, zero_mul] at hdd
    exact hd hdd.symm
  refine ⟨⟨u, v⟩, ?_, ?_, hgcd1, hvz, ?_⟩
  · rw [Rational.simplify, if_neg hgz, hq1]
    simp only [exceptBindOk]
    rw [hq2]
    simp only [exceptBindOk]
  · have hZ : u * r.denom = r.numer * v := by
      calc u * r.denom = u * (v * ((Int.gcd r.numer r.denom : Int))) := by rw [hdd]
      _ = u * ((Int.gcd r.numer r.denom : Int)) * v := by ring
      _ = r.numer * v := by rw [hn]
    simp only [Rational.val]
    rw [div_eq_div_iff]
    · exact_mod_cast hZ
    · exact_mod_cast hvz
    · exact_mod_cast hd
  · rw [← hdd]
    constructor
    · intro h
      exact mul_neg_of_neg_of_pos h hgpos
    · intro h
      by_contra hc
      push_neg at hc
      nlinarith

theorem Rational.make_true_ok {n d : Int} (hd : d ≠ 0) (hn53 : n.natAbs ≤ 2 ^ 53)
    (hd53 : d.natAbs ≤ 2 ^ 53) :
    ∃ r2, Rational.make n d true = .ok r2 ∧ r2.val = (n : ℚ) / (d : ℚ) ∧
      Int.gcd r2.numer r2.denom = 1 ∧ r2.denom ≠ 0 := by
  by_cases h1 : d = 1
  · subst h1
    refine ⟨⟨n, 1⟩, ?_, ?_, ?_, ?_⟩
    · simp [Rational.make]
    · simp [Rational.val]
    · simp [Int.gcd]
    · simp
  · obtain ⟨r2, hok, hval, hgcd, hdz, _⟩ :=
      Rational.simplify_ok (r := ⟨n, d⟩) hd hn53 hd53
    refine ⟨r2, ?_, ?_, hgcd, hdz⟩
    · simp only [Rational.make]
      rw [if_neg hd, if_pos ⟨h1, trivial⟩]
      exact hok
    · simp [Rational.val] at hval
      exact hval

theorem Rational.make_false_eq {n d : Int} (hd : d ≠ 0) :
    Rational.make n d false = .ok ⟨n, d⟩ := by
  simp [Rational.make, hd]

theorem Rational.match_denominators_ok {a b : Rational} (ha : a.denom ≠ 0)
    (hb : b.denom ≠ 0) (hba : a.numer.natAbs ≤ 2 ^ 26 ∧ a.denom.natAbs ≤ 2 ^ 26)
    (hbb : b.numer.natAbs ≤ 2 ^ 26 ∧ b.denom.natAbs ≤ 2 ^ 26) :
    ∃ dn a1 b1, Rational.match_denominators a b = .ok (dn, a1, b1) ∧
      a1.denom = dn ∧ b1.denom = dn ∧ dn ≠ 0 ∧ a1.val = a.val ∧ b1.val = b.val ∧
      a1.numer.natAbs ≤ 2 ^ 52 ∧ a1.denom.natAbs ≤ 2 ^ 52 ∧
      b1.numer.natAbs ≤ 2 ^ 52 ∧ b1.denom.natAbs ≤ 2 ^ 52 := by
  by_cases h : a.denom = b.denom
  · refine ⟨a.denom, a, b, ?_, rfl, h.symm, ha, rfl, rfl, ?_, ?_, ?_, ?_⟩
    · simp [Rational.match_denominators, h]
    · exact le_trans hba.1 (by norm_num)
    · exact le_trans hba.2 (by norm_num)
    · exact le_trans hbb.1 (by norm_num)
    · exact le_trans hbb.2 (by norm_num)
  · refine ⟨a.denom * b.denom, ⟨a.numer * b.denom, a.denom * b.denom⟩,
      ⟨b.numer * a.denom, b.denom * a.denom⟩, ?_, rfl, mul_comm _ _,
      mul_ne_zero ha hb, ?_, ?_, ?_, ?_, ?_, ?_⟩
    · simp only [Rational.match_denominators, Rational.scale]
      rw [if_pos h, if_neg hb, if_neg ha]
      rfl
    · simp only [Rational.val]
      push_cast
      rw [mul_div_mul_right]
      exact_mod_cast hb
    · simp only [Rational.val]
      push_cast
      rw [mul_div_mul_right]
      exact_mod_cast ha
    · rw [Int.natAbs_mul]
      exact le_trans (Nat.mul_le_mul hba.1 hbb.2) (by norm_num)
    · rw [Int.natAbs_mul]
      exact le_trans (Nat.mul_le_mul hba.2 hbb.2) (by norm_num)
    · rw [Int.natAbs_mul]
      exact le_trans (Nat.mul_le_mul hbb.1 hba.2) (by norm_num)
    · rw [Int.natAbs_mul]
      exact le_trans (Nat.mul_le_mul hbb.2 hba.2) (by norm_num)

theorem Rational.add_ok {a b : Rational} (ha : a.denom ≠ 0) (hb : b.denom ≠ 0)
    (hba : a.numer.natAbs ≤ 2 ^ 26 ∧ a.denom.natAbs ≤ 2 ^ 26)
    (hbb : b.numer.natAbs ≤ 2 ^ 26 ∧ b.denom.natAbs ≤ 2 ^ 26) :
    ∃ r a2 b2, Rational.add a b true = .ok (r, a2, b2) ∧
      Int.gcd a2.numer a2.denom = 1 ∧ Int.gcd b2.numer b2.denom = 1 ∧
      a2.val = a.val ∧ b2.val = b.val ∧ r.val = a.val + b.val := by
  obtain ⟨dn, a1, b1, hmd, had, hbd, hdz, hav, hbv, bn1, bd1, bn2, bd2⟩ :=
    Rational.match_denominators_ok ha hb hba hbb
  have hsum : (a1.numer + b1.numer).natAbs ≤ 2 ^ 53 :=
    le_trans (Int.natAbs_add_le _ _) (le_trans (Nat.add_le_add bn1 bn2) (by norm_num))
  have hdn : dn.natAbs ≤ 2 ^ 53 := by
    rw [← had]
    exact le_trans bd1 (by norm_num)
  obtain ⟨r, hmk, hrv, _, _⟩ :=
    Rational.make_true_ok (n := a1.numer + b1.numer) (d := dn) hdz hsum hdn
  obtain ⟨a2, hsa, hav2, hga, _, _⟩ := Rational.simplify_ok (r := a1) (had ▸ hdz)
    (le_trans bn1 (by norm_num)) (le_trans bd1 (by norm_num))
  obtain ⟨b2, hsb, hbv2, hgb, _, _⟩ := Rational.simplify_ok (r := b1) (hbd ▸ hdz)
    (le_trans bn2 (by norm_num)) (le_trans bd2 (by norm_num))
  refine ⟨r, a2, b2, ?_, hga, hgb, hav2.trans hav, hbv2.trans hbv, ?_⟩
  · rw [Rational.add, hmd]
    simp only [exceptBindOk]
    rw [hmk]
    simp only [exceptBindOk]
    rw [hsa]
    simp only [exceptBindOk]
    rw [hsb]
    rfl
  · rw [hrv, ← hav, ← hbv]
    simp only [Rational.val, had, hbd]
    push_cast
    rw [div_add_div_same]

theorem Rational.subtract_ok {a b : Rational} (ha : a.denom ≠ 0) (hb : b.denom ≠ 0)
    (hba : a.numer.natAbs ≤ 2 ^ 26 ∧ a.denom.natAbs ≤ 2 ^ 26)
    (hbb : b.numer.natAbs ≤ 2 ^ 26 ∧ b.denom.natAbs ≤ 2 ^ 26) :
    ∃ r a2 b2, Rational.subtract a b true = .ok (r, a2, b2) ∧
      Int.gcd a2.numer a2.denom = 1 ∧ Int.gcd b2.numer b2.denom = 1 ∧
      a2.val = a.val ∧ b2.val = b.val ∧ r.val = a.val - b.val := by
  obtain ⟨dn, a1, b1, hmd, had, hbd, hdz, hav, hbv, bn1, bd1, bn2, bd2⟩ :=
    Rational.match_denominators_ok ha hb hba hbb
  have hsum : (a1.numer - b1.numer).natAbs ≤ 2 ^ 53 :=
    le_trans (Int.natAbs_sub_le _ _) (le_trans (Nat.add_le_add bn1 bn2) (by norm_num))
  have hdn : dn.natAbs ≤ 2 ^ 53 := by
    rw [← had]
    exact le_trans bd1 (by norm_num)
  obtain ⟨r, hmk, hrv, _, _⟩ :=
    Rational.make_true_ok (n := a1.numer - b1.numer) (d := dn) hdz hsum hdn
  obtain ⟨a2, hsa, hav2, hga, _, _⟩ := Rational.simplify_ok (r := a1) (had ▸ hdz)
    (le_trans bn1 (by norm_num)) (le_trans bd1 (by norm_num))
  obtain ⟨b2, hsb, hbv2, hgb, _, _⟩ := Rational.simplify_ok (r := b1) (hbd ▸ hdz)
    (le_trans bn2 (by norm_num)) (le_trans bd2 (by norm_num))
  refine ⟨r, a2, b2, ?_, hga, hgb, hav2.trans hav, hbv2.trans hbv, ?_⟩
  · rw [Rational.subtract, hmd]
    simp only [exceptBindOk]
    rw [hmk]
    simp only [exceptBindOk]
    rw [hsa]
    simp only [exceptBindOk]
    rw [hsb]
    rfl
  · rw [hrv, ← hav, ← hbv]
    simp only [Rational.val, had, hbd]
    push_cast
    rw [div_sub_div_same]

/-! ### Claims C6, C7, C8 -/

set_option maxRecDepth 10000 in
/-- C6 counterexample: the in-place simplification is NOT value-preserving in general.  With
the first operand (2^60+1)/1 — numerator beyond the 2^53 exact range of an IEEE double —
`add` scales it to (3·(2^60+1))/3 and then simplifies it in place: `int(numer / x)` divides
with float true division, whose correctly rounded result for the quotient 2^60+1 is the
double 2^60, so the operand comes back as 2^60/1 with a different value (Python:
`a = Rational(2**60+1, 1); Rational.add(a, Rational(1, 3))` leaves `a.numer == 2**60`).
The returned sum is likewise rounded (3·2^60 instead of 3·2^60+4). -/
theorem claim_C6_counterexample :
    Rational.add ⟨2 ^ 60 + 1, 1⟩ ⟨1, 3⟩ true =
      .ok (⟨3 * 2 ^ 60, 3⟩, ⟨2 ^ 60, 1⟩, ⟨1, 3⟩) ∧
    (⟨2 ^ 60, 1⟩ : Rational).val ≠ (⟨2 ^ 60 + 1, 1⟩ : Rational).val ∧
    (3 * 2 ^ 60 : Int) ≠ 3 * (2 ^ 60 + 1) + 1 :=
  ⟨rfl, by norm_num [Rational.val], by norm_num⟩

/-- C6 (amended): on operands whose fields have magnitude at most 2^26 — so that scaled
fields stay below 2^52, their sums and differences below 2^53, and every quotient produced
by `simplify`'s float division is exactly representable in a double — `Rational.add` and
`Rational.subtract` (with default simplification) leave both input operands simplified as an
observable side effect: after the call each operand is in lowest terms while still denoting
the same rational value as before, and the returned result is the exact sum (respectively
difference) of those values.  (Inputs have nonzero denominators, as every constructed
Rational does.)  Outside that range the claim fails: float division rounds quotients beyond
2^53 and the operands' values change, as the counterexample shows. -/
theorem claim_C6_add_subtract_frame (a b : Rational) (ha : a.denom ≠ 0) (hb : b.denom ≠ 0)
    (hba : a.numer.natAbs ≤ 2 ^ 26 ∧ a.denom.natAbs ≤ 2 ^ 26)
    (hbb : b.numer.natAbs ≤ 2 ^ 26 ∧ b.denom.natAbs ≤ 2 ^ 26) :
    (∃ r a2 b2, Rational.add a b true = .ok (r, a2, b2) ∧
      Int.gcd a2.numer a2.denom = 1 ∧ Int.gcd b2.numer b2.denom = 1 ∧
      a2.val = a.val ∧ b2.val = b.val ∧ r.val = a.val + b.val) ∧
    (∃ r a2 b2, Rational.subtract a b true = .ok (r, a2, b2) ∧
      Int.gcd a2.numer a2.denom = 1 ∧ Int.gcd b2.numer b2.denom = 1 ∧
      a2.val = a.val ∧ b2.val = b.val ∧ r.val = a.val - b.val) :=
  ⟨Rational.add_ok ha hb hba hbb, Rational.subtract_ok ha hb hba hbb⟩

/-- Witness for C6 at the concrete operands 1/6 and 1/4 (denominators 6 and 4, all fields
well below 2^26). -/
theorem claim_C6_add_subtract_frame_witness :
    (∃ r a2 b2, Rational.add ⟨1, 6⟩ ⟨1, 4⟩ true = .ok (r, a2, b2) ∧
      Int.gcd a2.numer a2.denom = 1 ∧ Int.gcd b2.numer b2.denom = 1 ∧
      a2.val = (⟨1, 6⟩ : Rational).val ∧ b2.val = (⟨1, 4⟩ : Rational).val ∧
      r.val = (⟨1, 6⟩ : Rational).val + (⟨1, 4⟩ : Rational).val) ∧
    (∃ r a2 b2, Rational.subtract ⟨1, 6⟩ ⟨1, 4⟩ true = .ok (r, a2, b2) ∧
      Int.gcd a2.numer a2.denom = 1 ∧ Int.gcd b2.numer b2.denom = 1 ∧
      a2.val = (⟨1, 6⟩ : Rational).val ∧ b2.val = (⟨1, 4⟩ : Rational).val ∧
      r.val = (⟨1, 6⟩ : Rational).val - (⟨1, 4⟩ : Rational).val) :=
  claim_C6_add_subtract_frame ⟨1, 6⟩ ⟨1, 4⟩ (by decide) (by decide) (by decide) (by decide)

/-- C7: for every Rational `x` with nonzero denominator (as construction guarantees),
`Rational.reciprocal x` fails with `ZeroDivisionError` precisely when the numerator of `x`
is zero — the error is raised by the constructor call `Rational(x.denom, x.numer, False)`,
the `x.denom == 0` guard inside `reciprocal` itself being unreachable — and otherwise it
returns the Rational with numerator and denominator swapped (unsimplified). -/
theorem claim_C7_reciprocal (x : Rational) (hd : x.denom ≠ 0) :
    (Rational.reciprocal x = .error .divideByZero ↔ x.numer = 0) ∧
    (x.numer ≠ 0 → Rational.reciprocal x = .ok ⟨x.denom, x.numer⟩) := by
  have hrec : Rational.reciprocal x = Rational.make x.denom x.numer false := by
    simp [Rational.reciprocal, hd]
  by_cases hn : x.numer = 0
  · refine ⟨⟨fun _ => hn, fun _ => ?_⟩, fun h => absurd hn h⟩
    rw [hrec, hn]
    simp [Rational.make]
  · have hok : Rational.reciprocal x = .ok ⟨x.denom, x.numer⟩ := by
      rw [hrec, Rational.make_false_eq hn]
    refine ⟨⟨fun h => ?_, fun h => absurd h hn⟩, fun _ => hok⟩
    rw [hok] at h
    cases h

/-- Witness for C7: reciprocal of 0/5 fails with the division-by-zero error, reciprocal of
3/5 is 5/3. -/
theorem claim_C7_reciprocal_witness :
    Rational.reciprocal ⟨0, 5⟩ = .error .divideByZero ∧
    Rational.reciprocal ⟨3, 5⟩ = .ok ⟨5, 3⟩ :=
  ⟨(claim_C7_reciprocal ⟨0, 5⟩ (by decide)).1.mpr rfl,
   (claim_C7_reciprocal ⟨3, 5⟩ (by decide)).2 (by decide)⟩

/-- C8 counterexample: `Rational(1, -2)` is built with simplification enabled (the
denominator is not 1, so `simplify` runs at construction), yet the resulting denominator is
`-2`, still negative — the sign is not folded into the numerator, contradicting the claim
that no simplified Rational has a negative denominator. -/
theorem claim_C8_counterexample :
    Rational.make 1 (-2) true = .ok ⟨1, -2⟩ ∧
    Rational.simplify ⟨1, -2⟩ = .ok ⟨1, -2⟩ ∧ (⟨1, -2⟩ : Rational).denom < 0 :=
  ⟨rfl, rfl, by decide⟩

set_option maxRecDepth 10000 in
/-- C8 (amended): `simplify` divides both fields by the nonnegative gcd of their absolute
values, so it preserves the sign of the denominator instead of folding a negative sign into
the numerator: after simplification (including the one performed at construction) the
denominator is negative exactly when it was negative before; when both fields have magnitude
at most 2^53 the quotients of the float divisions are exact, the value is unchanged and the
result is in lowest terms.  Beyond 2^53 even the value is corrupted: the float division
`int((2**60+1) / 1)` rounds to 2^60, as the final conjuncts record. -/
theorem claim_C8_simplify_sign (r : Rational) (hd : r.denom ≠ 0)
    (hn53 : r.numer.natAbs ≤ 2 ^ 53) (hd53 : r.denom.natAbs ≤ 2 ^ 53) :
    (∃ r2, r.simplify = .ok r2 ∧ (r2.denom < 0 ↔ r.denom < 0) ∧
      Int.gcd r2.numer r2.denom = 1 ∧ r2.val = r.val) ∧
    Rational.simplify ⟨2 ^ 60 + 1, 1⟩ = .ok ⟨2 ^ 60, 1⟩ ∧
    (⟨2 ^ 60, 1⟩ : Rational).val ≠ (⟨2 ^ 60 + 1, 1⟩ : Rational).val := by
  refine ⟨?_, rfl, by norm_num [Rational.val]⟩
  obtain ⟨r2, h1, h2, h3, h4, h5⟩ := Rational.simplify_ok hd hn53 hd53
  exact ⟨r2, h1, h5, h3, h2⟩

/-- Witness for the amended C8 at 4/(-6): simplification yields 2/(-3), denominator still
negative. -/
theorem claim_C8_simplify_sign_witness :
    (∃ r2, Rational.simplify ⟨4, -6⟩ = .ok r2 ∧
      (r2.denom < 0 ↔ (⟨4, -6⟩ : Rational).denom < 0) ∧
      Int.gcd r2.numer r2.denom = 1 ∧ r2.val = (⟨4, -6⟩ : Rational).val) ∧
    Rational.simplify ⟨2 ^ 60 + 1, 1⟩ = .ok ⟨2 ^ 60, 1⟩ ∧
    (⟨2 ^ 60, 1⟩ : Rational).val ≠ (⟨2 ^ 60 + 1, 1⟩ : Rational).val :=
  claim_C8_simplify_sign ⟨4, -6⟩ (by decide) (by decide) (by decide)

/-! ### Claims C1 and C3: concrete end-to-end evaluations -/

/-- C1: parse-then-calculate resolves operator precedence as documented: `"2+3*4"` evaluates
to a Rational exactly equal to 14, `"(2+3)*4"` to exactly 20, and `"2^3^2"` to 64 — the
exponent chain collapses left-associatively as (2^3)^2 = 64, not 2^(3^2) = 512. -/
theorem claim_C1_precedence :
    evalStr 50 ("2+3*4".toList) = .ok ⟨14, 1⟩ ∧ (⟨14, 1⟩ : Rational).val = 14 ∧
    evalStr 50 ("(2+3)*4".toList) = .ok ⟨20, 1⟩ ∧ (⟨20, 1⟩ : Rational).val = 20 ∧
    evalStr 50 ("2^3^2".toList) = .ok ⟨64, 1⟩ ∧
    (⟨64, 1⟩ : Rational).val = (2 ^ 3) ^ 2 ∧ (⟨64, 1⟩ : Rational).val ≠ 2 ^ (3 ^ 2) :=
  ⟨rfl, by norm_num [Rational.val], rfl, by norm_num [Rational.val], rfl,
   by norm_num [Rational.val], by norm_num [Rational.val]⟩

/-- C3: division and addition are exact rational arithmetic with no floating-point drift:
parse-then-calculate of `"1/3 + 1/3 + 1/3"` returns a Rational exactly equal to 1. -/
theorem claim_C3_exact_thirds :
    evalStr 50 ("1/3 + 1/3 + 1/3".toList) = .ok ⟨1, 1⟩ ∧ (⟨1, 1⟩ : Rational).val = 1 :=
  ⟨rfl, by norm_num [Rational.val]⟩

/-! ### Claim C5: what the validity check actually rejects -/

theorem Expression.is_validAux_iff :
    ∀ (ts : List Token) (b : Bool), Expression.is_validAux b ts = true ↔
      ∀ i (hi : i < ts.length), (ts.get ⟨i, hi⟩).is_value = (if i % 2 = 0 then b else !b) := by
  intro ts
  induction ts with
  | nil =>
    intro b
    constructor
    · intro _ i hi
      exact absurd hi (by simp)
    · intro _
      rfl
  | cons t rest ih =>
    intro b
    have hparity : ∀ (j : Nat) (c : Bool),
        (if (j + 1) % 2 = 0 then c else !c) = (if j % 2 = 0 then !c else !(!c)) := by
      intro j c
      rcases Nat.mod_two_eq_zero_or_one j with hp | hp
      · have h1 : (j + 1) % 2 = 1 := by omega
        simp [hp, h1]
      · have h1 : (j + 1) % 2 = 0 := by omega
        simp [hp, h1]
    constructor
    · intro h i hi
      simp only [Expression.is_validAux] at h
      by_cases hv : (t.is_value != b) = true
      · rw [if_pos hv] at h
        cases h
      · rw [if_neg hv] at h
        have hvb : t.is_value = b := by
          revert hv
          cases t.is_value <;> cases b <;> simp
        match i with
        | 0 => simpa using hvb
        | j + 1 =>
          have hj : j < rest.length := by simpa using hi
          have hrest := (ih (!b)).mp h j hj
          rw [hparity j b]
          simpa using hrest
    · intro h
      simp only [Expression.is_validAux]
      have hvb : t.is_value = b := by simpa using h 0 (by simp)
      rw [if_neg (by simp [hvb])]
      refine (ih (!b)).mpr ?_
      intro j hj
      have := h (j + 1) (by simpa using hj)
      rw [hparity j b] at this
      simpa using this

/-- C5 counterexample: the token sequence `[value 1, ADD]` ends on an operator token, so it
violates the claim's alternation invariant (`specAlternates`), yet `calculate` does not fail
with `InvalidExpressionError`: the code's `is_valid` accepts it (the check is positional
only and does not require the sequence to end on a value), consolidation runs (trivially),
and evaluation then fails with an `IndexError` while reading `tokens[2]`. -/
theorem claim_C5_counterexample :
    specAlternates [Token.rat ⟨1, 1⟩, Token.op .ADD] = false ∧
    Expression.is_valid [Token.rat ⟨1, 1⟩, Token.op .ADD] = true ∧
    Expression.calculate 5 [Token.rat ⟨1, 1⟩, Token.op .ADD] = .error .indexError ∧
    Err.indexError ≠ Err.invalidExpression :=
  ⟨rfl, rfl, rfl, by decide⟩

/-- C5 (amended): `calculate` fails immediately with `InvalidExpressionError` exactly for
the token sequences rejected by the code's `is_valid`, and `is_valid` checks only the
positional pattern "values at even indices, operators at odd indices" — it also accepts the
empty sequence and alternating sequences that end on an operator token, which instead fail
later, with `IndexError`, after consolidation has (trivially) run. -/
theorem claim_C5_invalid_check (tokens : List Token) (fuel : Nat) :
    (Expression.is_valid tokens = false →
      Expression.calculate (fuel + 1) tokens = .error .invalidExpression) ∧
    (Expression.is_valid tokens = true ↔
      ∀ i (hi : i < tokens.length), (tokens.get ⟨i, hi⟩).is_value = decide (i % 2 = 0)) ∧
    Expression.calculate (fuel + 1) ([] : List Token) = .error .indexError ∧
    Expression.calculate (fuel + 1) [Token.rat ⟨1, 1⟩, Token.op .ADD] = .error .indexError := by
  refine ⟨?_, ?_, rfl, rfl⟩
  · intro h
    simp only [Expression.calculate]
    rw [if_pos h]
  · rw [Expression.is_valid, Expression.is_validAux_iff]
    constructor
    · intro h i hi
      have := h i hi
      rcases Nat.mod_two_eq_zero_or_one i with hp | hp <;> simp [hp] at this ⊢ <;> exact this
    · intro h i hi
      have := h i hi
      rcases Nat.mod_two_eq_zero_or_one i with hp | hp <;> simp [hp] at this ⊢ <;> exact this

/-- Witness for the amended C5: a sequence starting with an operator is rejected by
`is_valid` and `calculate` raises the invalid-expression error at once. -/
theorem claim_C5_invalid_check_witness :
    Expression.calculate 1 [Token.op Operation.ADD] = .error .invalidExpression :=
  (claim_C5_invalid_check [Token.op Operation.ADD] 0).1 rfl

/-! ### Claim C9: field invariants of produced Rationals -/

theorem exceptBindError {ε α β : Type} (e : ε) (f : α → Except ε β) :
    (Except.error e >>= f : Except ε β) = .error e := rfl

theorem exceptBindEqOk {ε α β : Type} {x : Except ε α} {f : α → Except ε β} {b : β}
    (h : (x >>= f) = .ok b) : ∃ a, x = .ok a ∧ f a = .ok b := by
  cases x with
  | error e => rw [exceptBindError] at h; cases h
  | ok a => exact ⟨a, rfl, h⟩

theorem exceptMapEqOk {ε α β : Type} {x : Except ε α} {f : α → β} {b : β}
    (h : (x.map f) = .ok b) : ∃ a, x = .ok a ∧ f a = b := by
  cases x with
  | error e => cases h
  | ok a =>
    cases h
    exact ⟨a, rfl, rfl⟩

theorem Rational.simplify_denom_ne_zero {r r2 : Rational} (hd : r.denom ≠ 0)
    (h : r.simplify = .ok r2) : r2.denom ≠ 0 := by
  have hg : Int.gcd r.numer r.denom ≠ 0 := Rational.gcd_ne_zero hd
  have hgz : ((Int.gcd r.numer r.denom : Int)) ≠ 0 := by exact_mod_cast hg
  rw [Rational.simplify, if_neg hgz] at h
  obtain ⟨u, hu, h⟩ := exceptBindEqOk h
  obtain ⟨v, hv, h⟩ := exceptBindEqOk h
  injection h with h3
  obtain ⟨hgz2, hdvd, hrd⟩ := pyIntDivFloat_ok hv
  have hq : r.denom / ((Int.gcd r.numer r.denom : Nat) : Int) ≠ 0 := by
    intro h0
    have hcancel := Int.ediv_mul_cancel hdvd
    rw [h0, zero_mul] at hcancel
    exact hd hcancel.symm
  have hvz := roundIntDouble_ne_zero hrd hq
  rw [← h3]
  exact hvz

theorem Rational.make_denom_ne_zero {n d : Int} {f : Bool} {r : Rational}
    (h : Rational.make n d f = .ok r) : r.denom ≠ 0 := by
  by_cases hd : d = 0
  · rw [Rational.make, if_pos hd] at h
    cases h
  · by_cases hc : d ≠ 1 ∧ f = true
    · rw [Rational.make, if_neg hd, if_pos hc] at h
      exact Rational.simplify_denom_ne_zero (r := ⟨n, d⟩) hd h
    · rw [Rational.make, if_neg hd, if_neg hc] at h
      injection h with h3
      rw [← h3]
      exact hd

/-- C9 counterexample: on the operands 1/2 and 1 the EXPONENT branch of `op` computes the
float `0.5 ** 1.0 = 0.5` (exact in IEEE doubles: both operands and the result of `pow(x, 1.0)`
are exactly representable) and stores it via `Rational(0.5)`, i.e. with `numer = 0.5` and
`denom = 1`: the stored numerator is the non-integer 1/2, so not every Rational produced by
the dispatcher has an integer numerator.  The `Int`-field embedding cannot represent that
Python object and maps this branch to `.error .floatUnmodeled`. -/
theorem claim_C9_counterexample :
    expNumer ⟨1, 2⟩ ⟨1, 1⟩ = some (1, 2) ∧ (1, 2).2 ≠ 1 ∧
    op ⟨1, 2⟩ ⟨1, 1⟩ (some .EXPONENT) = .error .floatUnmodeled :=
  ⟨rfl, by decide, rfl⟩

/-- C9 (amended): every Rational returned by `Rational.parse`, `add`, `subtract`, `multiply`,
`divide` and the dispatcher `op` has a nonzero denominator (the constructor rejects zero
denominators).  Numerators, however, need NOT always be integers in the running program:
the EXPONENT case stores the float `base ** exponent` re-wrapped without simplification
(counterexample: 0.5), and since `add`/`subtract` apply no `int(...)` coercion to the sum of
numerators, such a float numerator propagates through later additions (Python:
`(2^0.5+1)` evaluates with numerator 2.414...).  The `Int`-typed `numer` field of the
embedding can express only integer numerators, so only the nonzero-denominator half is
formalised; the float branches are mapped to `.error .floatUnmodeled`. -/
theorem claim_C9_invariant (a b : Rational) (s : List Char) :
    (∀ r, Rational.parse s = .ok r → r.denom ≠ 0) ∧
    (∀ f r x y, Rational.add a b f = .ok (r, x, y) → r.denom ≠ 0) ∧
    (∀ f r x y, Rational.subtract a b f = .ok (r, x, y) → r.denom ≠ 0) ∧
    (∀ f r, Rational.multiply a b f = .ok r → r.denom ≠ 0) ∧
    (∀ f r, Rational.divide a b f = .ok r → r.denom ≠ 0) ∧
    (∀ o r, op a b (some o) = .ok r → r.denom ≠ 0) := by
  have hadd : ∀ f r x y, Rational.add a b f = .ok (r, x, y) → r.denom ≠ 0 := by
    intro f r x y h
    rw [Rational.add] at h
    obtain ⟨⟨dn, a1, b1⟩, hm, h⟩ := exceptBindEqOk h
    obtain ⟨r0, hk, h⟩ := exceptBindEqOk h
    obtain ⟨a2, hs1, h⟩ := exceptBindEqOk h
    obtain ⟨b2, hs2, h⟩ := exceptBindEqOk h
    injection h with h3
    have hr : r0 = r := congrArg Prod.fst h3
    rw [← hr]
    exact Rational.make_denom_ne_zero hk
  have hsub : ∀ f r x y, Rational.subtract a b f = .ok (r, x, y) → r.denom ≠ 0 := by
    intro f r x y h
    rw [Rational.subtract] at h
    obtain ⟨⟨dn, a1, b1⟩, hm, h⟩ := exceptBindEqOk h
    obtain ⟨r0, hk, h⟩ := exceptBindEqOk h
    obtain ⟨a2, hs1, h⟩ := exceptBindEqOk h
    obtain ⟨b2, hs2, h⟩ := exceptBindEqOk h
    injection h with h3
    have hr : r0 = r := congrArg Prod.fst h3
    rw [← hr]
    exact Rational.make_denom_ne_zero hk
  have hmul : ∀ f r, Rational.multiply a b f = .ok r → r.denom ≠ 0 := by
    intro f r h
    exact Rational.make_denom_ne_zero h
  refine ⟨?_, hadd, hsub, hmul, ?_, ?_⟩
  · intro r h
    rw [Rational.parse] at h
    obtain ⟨⟨n, d⟩, hp, h⟩ := exceptBindEqOk h
    exact Rational.make_denom_ne_zero h
  · intro f r h
    rw [Rational.divide] at h
    obtain ⟨rb, hrec, h⟩ := exceptBindEqOk h
    exact Rational.make_denom_ne_zero h
  · intro o r h
    cases o with
    | ADD =>
      obtain ⟨⟨r0, x, y⟩, hx, h2⟩ := exceptMapEqOk h
      rw [← h2]
      exact hadd true r0 x y hx
    | SUBTRACT =>
      obtain ⟨⟨r0, x, y⟩, hx, h2⟩ := exceptMapEqOk h
      rw [← h2]
      exact hsub true r0 x y hx
    | MULTIPLY => exact hmul true r h
    | DIVIDE =>
      rw [op] at h
      rw [Rational.divide] at h
      obtain ⟨rb, hrec, h⟩ := exceptBindEqOk h
      exact Rational.make_denom_ne_zero h
    | EXPONENT =>
      rw [op] at h
      cases hq : expNumer a b with
      | none => rw [hq] at h; cases h
      | some q =>
        rw [hq] at h
        dsimp only at h
        by_cases h1 : q.2 = 1
        · rw [if_pos h1] at h
          injection h with h3
          rw [← h3]
          exact one_ne_zero
        · rw [if_neg h1] at h
          cases h

/-- Witness for the amended C9: concrete instances of each conjunct. -/
theorem claim_C9_invariant_witness :
    (⟨1, 3⟩ : Rational).denom ≠ 0 ∧ (⟨7, 12⟩ : Rational).denom ≠ 0 :=
  ⟨(claim_C9_invariant ⟨1, 2⟩ ⟨2, 3⟩ ("0.1".toList)).2.2.2.1 true ⟨1, 3⟩ rfl,
   (claim_C9_invariant ⟨1, 3⟩ ⟨1, 4⟩ []).2.1 true ⟨7, 12⟩ ⟨1, 3⟩ ⟨1, 4⟩ rfl⟩

/-! ### Claim C4: implicit multiplication -/

theorem exceptPureBind {ε α β : Type} (x : α) (f : α → Except ε β) :
    ((pure x : Except ε α) >>= f) = f x := rfl

/-- C4: when the parser meets `(` (here with an empty literal buffer, which is the state
after any preceding token was emitted) and the previously emitted token is a value token, it
appends an implicit MULTIPLY operator token before the nested sub-expression parsed from the
parenthesised group; consequently `"2(3+1)"` evaluates to a Rational exactly equal to 8 and
`"(1+1)(2+2)"` evaluates to exactly 8. -/
theorem claim_C4_implicit_multiply (fuel : Nat) (cs content after : List Char)
    (toks : List Token) (hlast : lastIsValue toks = true)
    (hfind : findClose cs 0 = some (content, after)) :
    parseLoopF (fuel + 1) ('(' :: cs) toks [] =
      (do
        let sub ← parseLoopF fuel (removeSpaces content) [] []
        parseLoopF fuel after ((toks ++ [Token.op .MULTIPLY]) ++ [Token.expr sub]) []) ∧
    evalStr 50 ("2(3+1)".toList) = .ok ⟨8, 1⟩ ∧
    evalStr 50 ("(1+1)(2+2)".toList) = .ok ⟨8, 1⟩ ∧ (⟨8, 1⟩ : Rational).val = 8 := by
  refine ⟨?_, rfl, rfl, by norm_num [Rational.val]⟩
  have h1 : (is_digit '(' || '(' == '.') = false := by decide
  have h2 : Operation.parse '(' = none := rfl
  have h0 : flushBuf toks [] = .ok toks := rfl
  simp only [parseLoopF, h1, Bool.false_eq_true, if_false, h0, exceptBindOk,
    h2, hlast, hfind, if_pos rfl, if_true]

/-- Witness for C4 at the scanner state reached in `"2(3+1)"` right before the `(`. -/
theorem claim_C4_implicit_multiply_witness :
    parseLoopF 21 ('(' :: ("3+1)".toList)) [Token.rat ⟨2, 1⟩] [] =
      (do
        let sub ← parseLoopF 20 (removeSpaces ("3+1".toList)) [] []
        parseLoopF 20 ([] : List Char)
          (([Token.rat ⟨2, 1⟩] ++ [Token.op .MULTIPLY]) ++ [Token.expr sub]) []) ∧
    evalStr 50 ("2(3+1)".toList) = .ok ⟨8, 1⟩ ∧
    evalStr 50 ("(1+1)(2+2)".toList) = .ok ⟨8, 1⟩ ∧ (⟨8, 1⟩ : Rational).val = 8 :=
  claim_C4_implicit_multiply 20 ("3+1)".toList) ("3+1".toList) [] [Token.rat ⟨2, 1⟩]
    rfl rfl

/-! ### Claim C2: the consolidation loop terminates and leaves a 3-token triple -/

/-- The operations carried by the operator tokens of a list, in order. -/
def opsIn (ts : List Token) : List Operation := ts.filterMap Token.operation

theorem is_validAux_cons {b : Bool} {x : Token} {l : List Token} :
    Expression.is_validAux b (x :: l) = true ↔
      (x.is_value = b ∧ Expression.is_validAux (!b) l = true) := by
  simp only [Expression.is_validAux]
  cases hx : x.is_value <;> cases b <;> simp

theorem is_validAux_append (ys : List Token) :
    ∀ (xs : List Token) (b : Bool), Expression.is_validAux b (xs ++ ys) = true ↔
      (Expression.is_validAux b xs = true ∧
        Expression.is_validAux (if xs.length % 2 = 0 then b else !b) ys = true) := by
  intro xs
  induction xs with
  | nil =>
    intro b
    simp [Expression.is_validAux]
  | cons x xs ih =>
    intro b
    rw [List.cons_append, is_validAux_cons, is_validAux_cons, ih (!b)]
    have hparity : (if (x :: xs).length % 2 = 0 then b else !b) =
        (if xs.length % 2 = 0 then !b else !(!b)) := by
      rcases Nat.mod_two_eq_zero_or_one xs.length with hp | hp
      · have h1 : (xs.length + 1) % 2 = 1 := by omega
        simp [List.length_cons, hp, h1]
      · have h1 : (xs.length + 1) % 2 = 0 := by omega
        simp [List.length_cons, hp, h1]
    rw [hparity]
    tauto

theorem specAlternates_iff (ts : List Token) :
    specAlternates ts = true ↔ (Expression.is_valid ts = true ∧ ts.length % 2 = 1) := by
  induction ts using specAlternates.induct with
  | case1 =>
    simp [specAlternates, Expression.is_valid, Expression.is_validAux]
  | case2 t =>
    simp only [specAlternates, Expression.is_valid]
    rw [is_validAux_cons]
    simp [Expression.is_validAux]
  | case3 t o rest ih =>
    simp only [specAlternates, Expression.is_valid] at ih ⊢
    rw [is_validAux_cons, is_validAux_cons]
    simp only [Bool.and_eq_true, Bool.not_eq_true', Bool.not_true, Bool.not_false,
      List.length_cons]
    constructor
    · intro h
      refine ⟨⟨h.1.1, h.1.2, (ih.mp h.2).1⟩, ?_⟩
      have := (ih.mp h.2).2
      omega
    · intro h
      refine ⟨⟨h.1.1, h.1.2.1⟩, ih.mpr ⟨h.1.2.2, ?_⟩⟩
      have := h.2
      omega

theorem opsIn_append (xs ys : List Token) : opsIn (xs ++ ys) = opsIn xs ++ opsIn ys :=
  List.filterMap_append xs ys Token.operation

theorem mem_opsIn_of_get {ts : List Token} {i : Nat} {o : Operation} (hi : i < ts.length)
    (h : ts.get ⟨i, hi⟩ = Token.op o) : o ∈ opsIn ts := by
  rw [opsIn, List.mem_filterMap]
  exact ⟨Token.op o, h ▸ ts.get_mem i hi, rfl⟩

theorem pyGet_eq_ok {l : List Token} {j : Int} {k : Nat} (hj : 0 ≤ j) (hk : j.toNat = k)
    (hlt : k < l.length) : pyGet l j = .ok (l.get ⟨k, hlt⟩) := by
  simp only [pyGet]
  rw [if_neg (by omega : ¬ j < 0), if_pos hj, hk, List.getElem?_eq_getElem hlt]
  rfl

theorem pySliceTo_eq {l : List Token} {j : Int} (hj : 0 ≤ j) :
    pySliceTo l j = l.take j.toNat := by
  simp only [pySliceTo]
  rw [if_neg (by omega : ¬ j < 0)]

theorem consolidateStep_eq {ts : List Token} {i : Nat} (h1 : 1 ≤ i) (h2 : i + 1 < ts.length) :
    consolidateStep ts i =
      .ok (ts.take (i - 1) ++
        [Token.expr [ts.get ⟨i - 1, by omega⟩, ts.get ⟨i, by omega⟩, ts.get ⟨i + 1, h2⟩]] ++
        ts.drop (i + 2)) := by
  have e1 : pyGet ts ((i : Int) - 1) = .ok (ts.get ⟨i - 1, by omega⟩) :=
    pyGet_eq_ok (by omega) (by omega) (by omega)
  have e2 : pyGet ts (i : Int) = .ok (ts.get ⟨i, by omega⟩) :=
    pyGet_eq_ok (by omega) (by omega) (by omega)
  have e3 : pyGet ts ((i : Int) + 1) = .ok (ts.get ⟨i + 1, h2⟩) :=
    pyGet_eq_ok (by omega) (by omega) h2
  have e4 : pySliceTo ts ((i : Int) - 1) = ts.take (i - 1) := by
    rw [pySliceTo_eq (by omega)]
    congr 1
    omega
  rw [consolidateStep, e1]
  simp only [exceptBindOk]
  rw [e2]
  simp only [exceptBindOk]
  rw [e3]
  simp only [exceptBindOk]
  rw [e4]

theorem collapse_props {ts : List Token} {i : Nat} {o : Operation}
    (hv : Expression.is_valid ts = true) (h1 : 1 ≤ i) (hi : i < ts.length)
    (hop : ts.get ⟨i, hi⟩ = Token.op o) (hodd : ts.length % 2 = 1) (h4 : 4 ≤ ts.length) :
    i % 2 = 1 ∧ i + 1 < ts.length ∧
    ∃ ts2, consolidateStep ts i = .ok ts2 ∧ ts2.length = ts.length - 2 ∧
      Expression.is_valid ts2 = true ∧ (∀ o2, o2 ∈ opsIn ts2 → o2 ∈ opsIn ts) := by
  have hiodd : i % 2 = 1 := by
    have hchar := (Expression.is_validAux_iff ts true).mp hv i hi
    rw [hop] at hchar
    rcases Nat.mod_two_eq_zero_or_one i with hp | hp
    · rw [if_pos hp] at hchar
      cases hchar
    · exact hp
  have hi1 : i + 1 < ts.length := by omega
  refine ⟨hiodd, hi1, ?_⟩
  set P := ts.take (i - 1) with hP
  set a := ts.get ⟨i - 1, by omega⟩ with ha
  set c := ts.get ⟨i + 1, hi1⟩ with hc
  set suf := ts.drop (i + 2) with hsuf
  have hsplit : ts = P ++ (a :: Token.op o :: c :: suf) := by
    have hm1 : i - 1 + 1 = i := by omega
    have hm2 : i + 1 + 1 = i + 2 := by omega
    have hd1 : ts.drop (i - 1) = a :: ts.drop i := by
      have := List.drop_eq_getElem_cons (l := ts) (n := i - 1) (by omega)
      simp only [hm1] at this
      exact this
    have hd2 : ts.drop i = Token.op o :: ts.drop (i + 1) := by
      have := List.drop_eq_getElem_cons (l := ts) (n := i) hi
      rw [← hop]
      exact this
    have hd3 : ts.drop (i + 1) = c :: suf := by
      have := List.drop_eq_getElem_cons (l := ts) (n := i + 1) hi1
      simp only [hm2] at this
      exact this
    rw [← List.take_append_drop (i - 1) ts, hd1, hd2, hd3]
  have hPlen : P.length = i - 1 := by
    rw [hP, List.length_take]
    omega
  have hPeven : P.length % 2 = 0 := by omega
  have hvsplit := hv
  rw [Expression.is_valid, hsplit, is_validAux_append] at hvsplit
  rw [if_pos hPeven] at hvsplit
  obtain ⟨hvP, hvrest⟩ := hvsplit
  rw [is_validAux_cons] at hvrest
  obtain ⟨hva, hvrest⟩ := hvrest
  rw [is_validAux_cons] at hvrest
  obtain ⟨_, hvrest⟩ := hvrest
  rw [is_validAux_cons] at hvrest
  obtain ⟨hvc, hvsuf⟩ := hvrest
  simp only [Bool.not_true, Bool.not_false] at hva hvc hvsuf
  have hw : (Token.expr [a, Token.op o, c]).is_value = true := rfl
  refine ⟨P ++ [Token.expr [a, Token.op o, c]] ++ suf, ?_, ?_, ?_, ?_⟩
  · have hstep := consolidateStep_eq h1 hi1
    rw [hop] at hstep
    exact hstep
  · have hsuflen : suf.length = ts.length - (i + 2) := by
      rw [hsuf]
      exact List.length_drop (i + 2) ts
    simp only [List.length_append, List.length_cons, List.length_nil]
    omega
  · rw [Expression.is_valid, List.append_assoc, is_validAux_append, if_pos hPeven]
    refine ⟨hvP, ?_⟩
    rw [List.singleton_append, is_validAux_cons]
    exact ⟨hw, by simpa using hvsuf⟩
  · intro o2 ho2
    rw [opsIn, List.mem_filterMap] at ho2 ⊢
    obtain ⟨tok, htok, hto⟩ := ho2
    rw [List.append_assoc, List.mem_append, List.singleton_append, List.mem_cons] at htok
    rcases htok with hin | hin | hin
    · exact ⟨tok, (hsplit ▸ List.mem_append_left _ hin : tok ∈ ts), hto⟩
    · rw [hin] at hto
      cases hto
    · refine ⟨tok, ?_, hto⟩
      rw [hsplit]
      refine List.mem_append_right _ ?_
      simp [List.mem_cons, hin]

theorem fuel_step_bound {n : Nat} (h4 : 4 ≤ n) :
    (n - 2) * (n - 2) + (n - 2 - 1) + 1 ≤ n * n + 1 := by
  obtain ⟨m, rfl⟩ : ∃ m, n = m + 4 := ⟨n - 4, by omega⟩
  have e1 : m + 4 - 2 = m + 2 := by omega
  have e2 : m + 2 - 1 = m + 1 := by omega
  rw [e1, e2]
  nlinarith

theorem consolidateLoop_ok (ops : List Operation) :
    ∀ (fuel : Nat) (ts : List Token) (i : Nat),
      Expression.is_valid ts = true → ts.length % 2 = 1 → 3 ≤ ts.length → 1 ≤ i →
      (∀ o, o ∈ opsIn (ts.take i) → ops.contains o = false) →
      ts.length * ts.length + (ts.length - i) + 1 ≤ fuel →
      ∃ ts2, consolidateLoop fuel ops ts i = .ok ts2 ∧
        Expression.is_valid ts2 = true ∧ ts2.length % 2 = 1 ∧ 3 ≤ ts2.length ∧
        ts2.length ≤ ts.length ∧ (∀ o, o ∈ opsIn ts2 → o ∈ opsIn ts) ∧
        (ts2.length = 3 ∨ ∀ o, o ∈ opsIn ts2 → ops.contains o = false) := by
  intro fuel
  induction fuel with
  | zero =>
    intro ts i _ _ _ _ _ hf
    exact absurd hf (Nat.not_succ_le_zero _)
  | succ fuel ih =>
    intro ts i hv hodd h3 h1i hclean hf
    by_cases hcond : i < ts.length ∧ 4 ≤ ts.length
    · obtain ⟨hi, h4⟩ := hcond
      have hsome : ts[i]? = some (ts.get ⟨i, hi⟩) := List.getElem?_eq_getElem hi
      by_cases hop : (ts.get ⟨i, hi⟩).opIn ops = true
      · cases htk : ts.get ⟨i, hi⟩ with
        | rat r =>
          rw [htk] at hop
          simp [Token.opIn] at hop
        | expr l =>
          rw [htk] at hop
          simp [Token.opIn] at hop
        | op o =>
          obtain ⟨hiodd, hi1, ts', hstep, hlen', hv', hsub'⟩ :=
            collapse_props hv h1i hi htk hodd h4
          have hunf : consolidateLoop (fuel + 1) ops ts i =
              consolidateLoop fuel ops ts' 1 := by
            simp only [consolidateLoop]
            rw [if_pos ⟨hi, h4⟩, hsome]
            dsimp only
            rw [if_pos hop, hstep]
            simp only [exceptBindOk]
          have h3' : 3 ≤ ts'.length := by omega
          have hodd' : ts'.length % 2 = 1 := by omega
          have hclean' : ∀ o2, o2 ∈ opsIn (ts'.take 1) → ops.contains o2 = false := by
            intro o2 ho2
            cases hts' : ts' with
            | nil =>
              rw [hts'] at h3'
              simp at h3'
            | cons hd tl =>
              rw [hts'] at hv'
              rw [Expression.is_valid, is_validAux_cons] at hv'
              have hhd : hd.is_value = true := hv'.1
              rw [hts'] at ho2
              cases hd with
              | op o3 => cases hhd
              | rat r =>
                simp [opsIn, List.take, Token.operation] at ho2
              | expr l =>
                simp [opsIn, List.take, Token.operation] at ho2
          have hf' : ts'.length * ts'.length + (ts'.length - 1) + 1 ≤ fuel := by
            have hb := fuel_step_bound h4
            rw [hlen']
            generalize hA : ts.length * ts.length = A at hf hb
            generalize hB : (ts.length - 2) * (ts.length - 2) = B at hb ⊢
            omega
          obtain ⟨ts2, hloop, p1, p2, p3, p4, p5, p6⟩ :=
            ih ts' 1 hv' hodd' h3' (le_refl 1) hclean' hf'
          rw [hunf]
          exact ⟨ts2, hloop, p1, p2, p3, by omega,
            fun o2 ho2 => hsub' o2 (p5 o2 ho2), p6⟩
      · have hunf : consolidateLoop (fuel + 1) ops ts i =
            consolidateLoop fuel ops ts (i + 1) := by
          simp only [consolidateLoop]
          rw [if_pos ⟨hi, h4⟩, hsome]
          dsimp only
          rw [if_neg hop]
        have hclean2 : ∀ o, o ∈ opsIn (ts.take (i + 1)) → ops.contains o = false := by
          intro o ho
          rw [List.take_succ] at ho
          rw [opsIn, List.filterMap_append, List.mem_append] at ho
          rcases ho with ho | ho
          · exact hclean o ho
          · rw [hsome] at ho
            cases htk : ts.get ⟨i, hi⟩ with
            | rat r =>
              rw [htk] at ho
              simp [Token.operation] at ho
            | expr l =>
              rw [htk] at ho
              simp [Token.operation] at ho
            | op o3 =>
              rw [htk] at ho
              simp [Token.operation] at ho
              rw [htk] at hop
              simp [Token.opIn] at hop
              rw [ho]
              simpa using hop
        have hf2 : ts.length * ts.length + (ts.length - (i + 1)) + 1 ≤ fuel := by
          generalize hA : ts.length * ts.length = A at hf ⊢
          omega
        rw [hunf]
        exact ih ts (i + 1) hv hodd h3 (by omega) hclean2 hf2
    · have hunf : consolidateLoop (fuel + 1) ops ts i = .ok ts := by
        simp only [consolidateLoop]
        rw [if_neg hcond]
      refine ⟨ts, hunf, hv, hodd, h3, le_refl _, fun o ho => ho, ?_⟩
      by_cases hlen : 4 ≤ ts.length
      · right
        intro o ho
        have hile : ts.length ≤ i := by
          by_contra hcont
          exact hcond ⟨by omega, hlen⟩
        have htake : ts.take i = ts := List.take_of_length_le hile
        rw [← htake] at ho
        exact hclean o ho
      · left
        omega

theorem consolidate_ok (ops : List Operation) (ts : List Token)
    (hv : Expression.is_valid ts = true) (hodd : ts.length % 2 = 1) (h3 : 3 ≤ ts.length) :
    ∃ ts2, Expression.consolidate ops ts = .ok ts2 ∧
      Expression.is_valid ts2 = true ∧ ts2.length % 2 = 1 ∧ 3 ≤ ts2.length ∧
      ts2.length ≤ ts.length ∧ (∀ o, o ∈ opsIn ts2 → o ∈ opsIn ts) ∧
      (ts2.length = 3 ∨ ∀ o, o ∈ opsIn ts2 → ops.contains o = false) := by
  have hfuel : tierFuel ts = (ts.length * ts.length + ts.length + 1) + 1 := by
    rw [tierFuel]
  rw [Expression.consolidate, hfuel]
  by_cases h4 : 4 ≤ ts.length
  · have h0 : 0 < ts.length := by omega
    have hsome : ts[0]? = some (ts.get ⟨0, h0⟩) := List.getElem?_eq_getElem h0
    have hval0 : (ts.get ⟨0, h0⟩).is_value = true := by
      have := (Expression.is_validAux_iff ts true).mp hv 0 h0
      simpa using this
    have hop0 : ¬ (ts.get ⟨0, h0⟩).opIn ops = true := by
      cases htk : ts.get ⟨0, h0⟩ with
      | rat r => simp [Token.opIn]
      | expr l => simp [Token.opIn]
      | op o =>
        rw [htk] at hval0
        cases hval0
    have hunf : consolidateLoop ((ts.length * ts.length + ts.length + 1) + 1) ops ts 0 =
        consolidateLoop (ts.length * ts.length + ts.length + 1) ops ts 1 := by
      simp only [consolidateLoop]
      rw [if_pos ⟨h0, h4⟩, hsome]
      dsimp only
      rw [if_neg hop0]
    have hclean1 : ∀ o, o ∈ opsIn (ts.take 1) → ops.contains o = false := by
      intro o ho
      cases hts : ts with
      | nil =>
        rw [hts] at h0
        simp at h0
      | cons hd tl =>
        have hhd : hd.is_value = true := by
          have hv4 := hv
          rw [Expression.is_valid, hts, is_validAux_cons] at hv4
          exact hv4.1
        rw [hts] at ho
        cases hd with
        | op o3 => cases hhd
        | rat r => simp [opsIn, List.take, Token.operation] at ho
        | expr l => simp [opsIn, List.take, Token.operation] at ho
    rw [hunf]
    exact consolidateLoop_ok ops _ ts 1 hv hodd h3 (le_refl 1) hclean1
      (by generalize ts.length * ts.length = A; omega)
  · have hl3 : ts.length = 3 := by omega
    have hunf : consolidateLoop ((ts.length * ts.length + ts.length + 1) + 1) ops ts 0 =
        .ok ts := by
      simp only [consolidateLoop]
      rw [if_neg (fun hc => h4 hc.2)]
    exact ⟨ts, hunf, hv, hodd, h3, le_refl _, fun o ho => ho, Or.inl hl3⟩

/-- C2: for every Expression whose token sequence satisfies the alternation invariant
(strictly alternating value, operator, value, …, starting and ending on a value) with at
least 4 tokens (hence odd length ≥ 5), running the three consolidation tiers — EXPONENT,
then MULTIPLY/DIVIDE, then ADD/SUBTRACT, each repeatedly collapsing the leftmost matching
triple and rescanning — terminates (the fuelled loop completes within its fuel, never
exhausting it) and leaves exactly 3 tokens of the form (value, operator, value), still
satisfying the alternation invariant. -/
theorem claim_C2_pemdas_shape (ts : List Token) (hs : specAlternates ts = true)
    (h4 : 4 ≤ ts.length) :
    ∃ ts2, Expression.pemdas ts = .ok ts2 ∧ ts2.length = 3 ∧
      specAlternates ts2 = true ∧
      ∃ v1 o v2, ts2 = [v1, Token.op o, v2] ∧ v1.is_value = true ∧ v2.is_value = true := by
  obtain ⟨hv, hodd⟩ := (specAlternates_iff ts).mp hs
  obtain ⟨t1, he1, hv1, hodd1, h31, hle1, hsub1, hd1⟩ :=
    consolidate_ok [Operation.EXPONENT] ts hv hodd (by omega)
  obtain ⟨t2, he2, hv2, hodd2, h32, hle2, hsub2, hd2⟩ :=
    consolidate_ok [Operation.MULTIPLY, Operation.DIVIDE] t1 hv1 hodd1 h31
  obtain ⟨t3, he3, hv3, hodd3, h33, hle3, hsub3, hd3⟩ :=
    consolidate_ok [Operation.ADD, Operation.SUBTRACT] t2 hv2 hodd2 h32
  have hpem : Expression.pemdas ts = .ok t3 := by
    rw [Expression.pemdas, he1]
    simp only [exceptBindOk]
    rw [he2]
    simp only [exceptBindOk]
    rw [he3]
  have hlen3 : t3.length = 3 := by
    by_contra hne
    have h5 : 5 ≤ t3.length := by omega
    have h1lt : 1 < t3.length := by omega
    have hchar := (Expression.is_validAux_iff t3 true).mp hv3 1 h1lt
    rw [if_neg (by omega)] at hchar
    cases htk : t3.get ⟨1, h1lt⟩ with
    | rat r =>
      rw [htk] at hchar
      cases hchar
    | expr l =>
      rw [htk] at hchar
      cases hchar
    | op o =>
      have ho3 : o ∈ opsIn t3 := mem_opsIn_of_get h1lt htk
      have hno3 : ([Operation.ADD, Operation.SUBTRACT].contains o) = false := by
        rcases hd3 with h | h
        · omega
        · exact h o ho3
      have ho2 : o ∈ opsIn t2 := hsub3 o ho3
      have hno2 : ([Operation.MULTIPLY, Operation.DIVIDE].contains o) = false := by
        rcases hd2 with h | h
        · omega
        · exact h o ho2
      have ho1 : o ∈ opsIn t1 := hsub2 o ho2
      have hno1 : ([Operation.EXPONENT].contains o) = false := by
        rcases hd1 with h | h
        · omega
        · exact h o ho1
      cases o <;> simp at hno1 hno2 hno3
  refine ⟨t3, hpem, hlen3, (specAlternates_iff t3).mpr ⟨hv3, hodd3⟩, ?_⟩
  match t3, hlen3 with
  | [x, y, z], _ =>
    have hx : x.is_value = true := by
      rw [Expression.is_valid, is_validAux_cons] at hv3
      exact hv3.1
    have hyz := by
      rw [Expression.is_valid, is_validAux_cons] at hv3
      exact hv3.2
    rw [is_validAux_cons] at hyz
    have hy : y.is_value = false := by simpa using hyz.1
    have hz : z.is_value = true := by
      have := hyz.2
      rw [is_validAux_cons] at this
      simpa using this.1
    cases y with
    | rat r => cases hy
    | expr l => cases hy
    | op o => exact ⟨x, o, z, rfl, hx, hz⟩

/-- Witness for C2 at the concrete 5-token expression 1 + 2 * 3. -/
theorem claim_C2_pemdas_shape_witness :
    ∃ ts2, Expression.pemdas [Token.rat ⟨1, 1⟩, Token.op .ADD, Token.rat ⟨2, 1⟩,
        Token.op .MULTIPLY, Token.rat ⟨3, 1⟩] = .ok ts2 ∧ ts2.length = 3 ∧
      specAlternates ts2 = true ∧
      ∃ v1 o v2, ts2 = [v1, Token.op o, v2] ∧ v1.is_value = true ∧ v2.is_value = true :=
  claim_C2_pemdas_shape
    [Token.rat ⟨1, 1⟩, Token.op .ADD, Token.rat ⟨2, 1⟩, Token.op .MULTIPLY, Token.rat ⟨3, 1⟩]
    rfl (by decide)

/-! ### Claim C10: unmatched parentheses -/

theorem isSome_map {α β : Type} (x : Option α) (g : α → β) : (x.map g).isSome = x.isSome := by
  cases x <;> rfl

theorem findClose_eq_append :
    ∀ (l : List Char) (lvl : Nat) (u v : List Char),
      findClose l lvl = some (u, v) → l = u ++ ')' :: v := by
  intro l
  induction l with
  | nil =>
    intro lvl u v h
    cases h
  | cons c rest ih =>
    intro lvl u v h
    by_cases hc1 : c = '('
    · rw [findClose, if_pos hc1, Option.map_eq_some'] at h
      obtain ⟨⟨u', v'⟩, hfc, heq⟩ := h
      cases heq
      rw [List.cons_append]
      rw [← ih (lvl + 1) u' v' hfc]
    · by_cases hc2 : c = ')'
      · rw [findClose, if_neg hc1, if_pos hc2] at h
        by_cases hl : lvl = 0
        · rw [if_pos hl] at h
          cases h
          rw [List.nil_append, hc2]
        · rw [if_neg hl, Option.map_eq_some'] at h
          obtain ⟨⟨u', v'⟩, hfc, heq⟩ := h
          cases heq
          rw [List.cons_append]
          rw [← ih (lvl - 1) u' v' hfc]
      · rw [findClose, if_neg hc1, if_neg hc2, Option.map_eq_some'] at h
        obtain ⟨⟨u', v'⟩, hfc, heq⟩ := h
        cases heq
        rw [List.cons_append]
        rw [← ih lvl u' v' hfc]

theorem findClose_append (w : List Char) :
    ∀ (l : List Char) (lvl : Nat) (u v : List Char),
      findClose l lvl = some (u, v) → findClose (l ++ w) lvl = some (u, v ++ w) := by
  intro l
  induction l with
  | nil =>
    intro lvl u v h
    cases h
  | cons c rest ih =>
    intro lvl u v h
    rw [List.cons_append]
    by_cases hc1 : c = '('
    · rw [findClose, if_pos hc1, Option.map_eq_some'] at h
      obtain ⟨⟨u', v'⟩, hfc, heq⟩ := h
      cases heq
      rw [findClose, if_pos hc1, ih (lvl + 1) u' v' hfc]
      rfl
    · by_cases hc2 : c = ')'
      · rw [findClose, if_neg hc1, if_pos hc2] at h
        by_cases hl : lvl = 0
        · rw [if_pos hl] at h
          cases h
          rw [findClose, if_neg hc1, if_pos hc2, if_pos hl]
        · rw [if_neg hl, Option.map_eq_some'] at h
          obtain ⟨⟨u', v'⟩, hfc, heq⟩ := h
          cases heq
          rw [findClose, if_neg hc1, if_pos hc2, if_neg hl, ih (lvl - 1) u' v' hfc]
          rfl
      · rw [findClose, if_neg hc1, if_neg hc2, Option.map_eq_some'] at h
        obtain ⟨⟨u', v'⟩, hfc, heq⟩ := h
        cases heq
        rw [findClose, if_neg hc1, if_neg hc2, ih lvl u' v' hfc]
        rfl

theorem findClose_removeSpaces :
    ∀ (l : List Char) (lvl : Nat),
      (findClose (removeSpaces l) lvl).isSome = (findClose l lvl).isSome := by
  intro l
  induction l with
  | nil =>
    intro lvl
    rfl
  | cons c rest ih =>
    intro lvl
    by_cases hsp : c = ' '
    · have hr : removeSpaces (c :: rest) = removeSpaces rest := by
        rw [removeSpaces, List.filter_cons]
        simp [hsp]
        rfl
      have hc1 : ¬ c = '(' := by rw [hsp]; decide
      have hc2 : ¬ c = ')' := by rw [hsp]; decide
      rw [hr, findClose, if_neg hc1, if_neg hc2, isSome_map]
      exact ih lvl
    · have hr : removeSpaces (c :: rest) = c :: removeSpaces rest := by
        rw [removeSpaces, List.filter_cons]
        simp [hsp]
        rfl
      rw [hr]
      by_cases hc1 : c = '('
      · rw [findClose, if_pos hc1, isSome_map, findClose, if_pos hc1, isSome_map]
        exact ih (lvl + 1)
      · by_cases hc2 : c = ')'
        · by_cases hl : lvl = 0
          · rw [findClose, if_neg hc1, if_pos hc2, if_pos hl,
              findClose, if_neg hc1, if_pos hc2, if_pos hl]
            rfl
          · rw [findClose, if_neg hc1, if_pos hc2, if_neg hl, isSome_map,
              findClose, if_neg hc1, if_pos hc2, if_neg hl, isSome_map]
            exact ih (lvl - 1)
        · rw [findClose, if_neg hc1, if_neg hc2, isSome_map,
            findClose, if_neg hc1, if_neg hc2, isSome_map]
          exact ih lvl

theorem removeSpaces_append (xs ys : List Char) :
    removeSpaces (xs ++ ys) = removeSpaces xs ++ removeSpaces ys :=
  List.filter_append xs ys

theorem parseLoopF_ok_parens :
    ∀ (f : Nat) (chars : List Char) (toks : List Token) (buf : List Char)
      (res : List Token), parseLoopF f chars toks buf = .ok res →
      ∀ pre post, chars = pre ++ '(' :: post → (findClose post 0).isSome = true := by
  intro f
  induction f with
  | zero =>
    intro chars toks buf res h
    cases h
  | succ f ih =>
    intro chars toks buf res h pre post hsplit
    cases chars with
    | nil => cases pre <;> simp at hsplit
    | cons c rest =>
      simp only [parseLoopF] at h
      by_cases hd : (is_digit c || c == '.') = true
      · rw [if_pos hd] at h
        cases pre with
        | nil =>
          simp only [List.nil_append, List.cons.injEq] at hsplit
          rw [hsplit.1] at hd
          cases hd
        | cons p pre' =>
          simp only [List.cons_append, List.cons.injEq] at hsplit
          exact ih rest toks (buf ++ [c]) res h pre' post hsplit.2
      · rw [if_neg hd] at h
        obtain ⟨toks2, hflush, h⟩ := exceptBindEqOk h
        cases hco : Operation.parse c with
        | some o =>
          rw [hco] at h
          dsimp only at h
          cases pre with
          | nil =>
            simp only [List.nil_append, List.cons.injEq] at hsplit
            rw [hsplit.1] at hco
            cases hco
          | cons p pre' =>
            simp only [List.cons_append, List.cons.injEq] at hsplit
            exact ih rest (toks2 ++ [Token.op o]) [] res h pre' post hsplit.2
        | none =>
          rw [hco] at h
          dsimp only at h
          by_cases hpar : c = '('
          · rw [if_pos hpar] at h
            cases hfc : findClose rest 0 with
            | none =>
              rw [hfc] at h
              cases h
            | some p2 =>
              obtain ⟨content, after⟩ := p2
              rw [hfc] at h
              dsimp only at h
              obtain ⟨sub, hsub, h⟩ := exceptBindEqOk h
              cases pre with
              | nil =>
                simp only [List.nil_append, List.cons.injEq] at hsplit
                rw [← hsplit.2, hfc]
                rfl
              | cons p pre' =>
                simp only [List.cons_append, List.cons.injEq] at hsplit
                have hreq := findClose_eq_append rest 0 content after hfc
                have hcomb : pre' ++ '(' :: post = content ++ ')' :: after := by
                  rw [← hsplit.2, hreq]
                rcases List.append_eq_append_iff.mp hcomb with ⟨a', hca, hpa⟩ | ⟨c', hpc, hac⟩
                · cases a' with
                  | nil => simp at hpa
                  | cons x mid =>
                    simp only [List.cons_append, List.cons.injEq] at hpa
                    obtain ⟨hx, hpost⟩ := hpa
                    rw [← hx] at hca
                    have hdecomp : removeSpaces content =
                        removeSpaces pre' ++ '(' :: removeSpaces mid := by
                      rw [hca, removeSpaces_append]
                      rfl
                    have hfmid := ih (removeSpaces content) [] [] sub hsub
                      (removeSpaces pre') (removeSpaces mid) hdecomp
                    rw [findClose_removeSpaces] at hfmid
                    obtain ⟨⟨u, v⟩, huv⟩ := Option.isSome_iff_exists.mp hfmid
                    rw [hpost, findClose_append (')' :: after) mid 0 u v huv]
                    rfl
                · cases c' with
                  | nil => simp at hac
                  | cons x mid =>
                    simp only [List.cons_append, List.cons.injEq] at hac
                    exact ih after _ [] res h mid post hac.2
          · rw [if_neg hpar] at h
            cases h

/-- C10 counterexample: `"#("` contains a `(` with no matching `)` before the end of the
string, yet `Expression.parse` fails with the invalid-character `ValueError`, raised at `#`
before the scan ever reaches the parenthesis — not with the unmatched-parenthesis error the
claim names for every such input. -/
theorem claim_C10_counterexample :
    ("#(".toList = ['#'] ++ '(' :: ([] : List Char)) ∧
    findClose ([] : List Char) 0 = none ∧
    Expression.parse 50 ("#(".toList) = .error .invalidChar ∧
    Err.invalidChar ≠ Err.unmatchedParens :=
  ⟨rfl, rfl, rfl, by decide⟩

/-- C10 (amended): for every input string containing a `(` with no matching `)` before the
end of the string (matching determined by counting nested parenthesis depth, as in
`find_matching_parens`), `Expression.parse` always fails — it never returns an Expression —
and the error is the unmatched-parenthesis `ValueError` when the scan reaches the unmatched
`(` without first hitting an invalid character or malformed literal; in particular
`"(1+2"` fails with exactly the unmatched-parenthesis error. -/
theorem claim_C10_unmatched (s pre post : List Char) (f : Nat)
    (hsplit : s = pre ++ '(' :: post) (hnone : findClose post 0 = none) :
    (∀ res, Expression.parse f s ≠ .ok res) ∧
    Expression.parse 50 ("(1+2".toList) = .error .unmatchedParens := by
  refine ⟨?_, rfl⟩
  intro res hok
  rw [Expression.parse] at hok
  have hdecomp : removeSpaces s = removeSpaces pre ++ '(' :: removeSpaces post := by
    rw [hsplit, removeSpaces_append]
    rfl
  have hsome := parseLoopF_ok_parens f (removeSpaces s) [] [] res hok
    (removeSpaces pre) (removeSpaces post) hdecomp
  rw [findClose_removeSpaces, hnone] at hsome
  cases hsome

/-- Witness for the amended C10 at the input `"(1+2"` itself. -/
theorem claim_C10_unmatched_witness :
    (∀ res, Expression.parse 50 ("(1+2".toList) ≠ .ok res) ∧
    Expression.parse 50 ("(1+2".toList) = .error .unmatchedParens :=
  claim_C10_unmatched ("(1+2".toList) [] ("1+2".toList) 50 rfl rfl
